import Mathlib

set_option maxRecDepth 2048

/-!
Shallow embedding, in Lean 4, of the three Python modules of this repository:

* `tooling/repro_lsp.py` — a scripted client for the `Content-Length`-framed
  JSON-RPC wire protocol spoken over a child process's standard streams:
  the frame encoder (`send`), the stdout read loop (header parse, exact-length
  body read, payload classification), the scripted message sequence, the
  stderr drain (`reader`) and the final `terminate()` cleanup.
* `benchmark/factorial.py` — the recursive integer factorial.
* `benchmark/sieve.py` — an odd-only sieve of Eratosthenes with a Newton
  integer square root.

Streams are modelled as `List Char` at byte granularity: every byte the
encoder emits is ASCII (`json.dumps` escapes non-ASCII by default, and the
header text is ASCII), so one `Char` stands for one byte; this identification
is proved, not assumed (`dumpVal_ascii`, `utf8ByteLen_dumpVal`).  Python
loops are embedded either by well-founded recursion or with an explicit
`fuel` argument bounding the iteration count; in the latter case the callers
pass a provably sufficient amount and fuel-independence is proved.  Fallible
Python operations (`int(...)`, `json.loads`, a raised exception) are
modelled with `Option`, `none` standing for the raised exception that the
surrounding `try` block catches.
-/

namespace MmlTool

/-! ### Characters, digits, numerals -/

/-- Decimal digit test, `'0' ≤ c ≤ '9'`. -/
def isDigitCh (c : Char) : Bool := 48 ≤ c.toNat && c.toNat ≤ 57

/-- The whitespace set of Python's `str.strip()` (ASCII part). -/
def isPyWs (c : Char) : Bool :=
  c = ' ' || c = '\t' || c = '\n' || c = '\r' || c = '\x0b' || c = '\x0c'

/-- The whitespace characters JSON's grammar allows between tokens. -/
def isJWs (c : Char) : Bool := c = ' ' || c = '\t' || c = '\n' || c = '\r'

/-- The decimal digit character for `d` (callers keep `d < 10`). -/
def digitCh (d : Nat) : Char :=
  match d with
  | 0 => '0' | 1 => '1' | 2 => '2' | 3 => '3' | 4 => '4'
  | 5 => '5' | 6 => '6' | 7 => '7' | 8 => '8' | _ => '9'

/-- The lowercase hexadecimal digit character for `d` (callers keep `d < 16`). -/
def hexCh (d : Nat) : Char :=
  match d with
  | 0 => '0' | 1 => '1' | 2 => '2' | 3 => '3' | 4 => '4'
  | 5 => '5' | 6 => '6' | 7 => '7' | 8 => '8' | 9 => '9'
  | 10 => 'a' | 11 => 'b' | 12 => 'c' | 13 => 'd' | 14 => 'e' | _ => 'f'

/-- Value of a hexadecimal digit character, either case (`none`: not one). -/
def hexChVal (c : Char) : Option Nat :=
  if isDigitCh c then some (c.toNat - 48)
  else if 'a' ≤ c ∧ c ≤ 'f' then some (c.toNat - 87)
  else if 'A' ≤ c ∧ c ≤ 'F' then some (c.toNat - 55)
  else none

/-- Decimal numeral of `n`, most significant digit first — the digits Python
produces for a nonnegative `int`. -/
def natDigits (n : Nat) : List Char :=
  if h : n < 10 then [digitCh n]
  else natDigits (n / 10) ++ [digitCh (n % 10)]
termination_by n
decreasing_by exact Nat.div_lt_self (by omega) (by omega)

/-- Numeric value of a digit character (callers keep `isDigitCh c`). -/
def digitVal (c : Char) : Nat := c.toNat - 48

/-- Value of a digit list read left to right, base ten. -/
def digitsVal (ds : List Char) : Nat := ds.foldl (fun a c => a * 10 + digitVal c) 0

/-- Longest digit run at the front of the input, plus the remainder. -/
def grabDigits : List Char → List Char × List Char
  | [] => ([], [])
  | c :: cs =>
    if isDigitCh c then
      let p := grabDigits cs
      (c :: p.1, p.2)
    else ([], c :: cs)

/-- A nonempty digit run after prefix `pre`, the shared shape of the
fraction and exponent groups of the scanner's number regular expression:
`none` when no digit follows, else the prefixed digits and the remainder. -/
def digitsTok (pre s : List Char) : Option (List Char × List Char) :=
  if (grabDigits s).1 = [] then none
  else some (pre ++ (grabDigits s).1, (grabDigits s).2)

/-- The fraction part of a JSON float literal: a dot followed by one or
more digits; `none` when the input does not start one, in which case
nothing is consumed. -/
def fracTail : List Char → Option (List Char × List Char)
  | c :: r => if c = '.' then digitsTok ['.'] r else none
  | [] => none

/-- After `e`/`E`: an optional sign, then one or more digits. -/
def expTailAfter (e : Char) : List Char → Option (List Char × List Char)
  | c :: r1 =>
    if c = '+' || c = '-' then digitsTok [e, c] r1
    else digitsTok [e] (c :: r1)
  | [] => none

/-- The exponent part of a JSON float literal: `e`/`E`, an optional sign,
one or more digits. -/
def expTail : List Char → Option (List Char × List Char)
  | e :: r => if e = 'e' || e = 'E' then expTailAfter e r else none
  | [] => none

/-- What may follow the integer part of a number and make it a float: a
fraction, an exponent, or both, greedily consumed exactly as the scanner's
regular expression consumes them; `none` when neither is present. -/
def floatTail (s : List Char) : Option (List Char × List Char) :=
  match fracTail s with
  | some (f, r1) =>
    match expTail r1 with
    | some (g, r2) => some (f ++ g, r2)
    | none => some (f, r1)
  | none => expTail s

/-- The numeric (non-constant) float tokens: an optional minus, an integer
part without redundant leading zeros, and a fraction and/or exponent
covering the rest of the token. -/
def isFloatTokNum : List Char → Bool
  | [] => false
  | c :: t =>
    (c = '-' || isDigitCh c) &&
      match grabDigits (if c = '-' then t else c :: t) with
      | (gs, rem) =>
        match gs with
        | [] => false
        | d0 :: ds =>
          !(d0 = '0' && ds ≠ []) &&
            match floatTail rem with
            | some (_, r2) => r2.isEmpty
            | none => false

/-- A complete float token as `json.loads` accepts it: one of the constants
`NaN`/`Infinity`/`-Infinity` (accepted by the default `parse_constant`), or
a token of the numeric float shape. -/
def isFloatTok (tok : List Char) : Bool :=
  tok = ("NaN").toList || tok = ("Infinity").toList || tok = ("-Infinity").toList ||
    isFloatTokNum tok

/-- The four lowercase hex digits of `n` (callers keep `n < 0x10000`),
as in Python's `'\\u%04x'` escape. -/
def hex4 (n : Nat) : List Char :=
  [hexCh (n / 4096 % 16), hexCh (n / 256 % 16), hexCh (n / 16 % 16), hexCh (n % 16)]

/-- Number of bytes of the UTF-8 encoding of one scalar value, used to model
`len(content.encode('utf-8'))`. -/
def utf8Width (c : Char) : Nat :=
  if c.toNat < 0x80 then 1
  else if c.toNat < 0x800 then 2
  else if c.toNat < 0x10000 then 3
  else 4

/-- Byte length of the UTF-8 encoding of a character sequence. -/
def utf8ByteLen (s : List Char) : Nat := (s.map utf8Width).sum

/-! ### JSON values

The payloads `json.dumps` serialises and `json.loads` parses.  Integers
carry their exact value (`jnum`); a float is kept as its source token
(`jflt`), well-formed by construction — the tool never inspects a float's
IEEE value, only whether a document decodes, so the token (which `float()`
would convert, and which re-parses to itself) is the faithful residue.
Objects are ordered key/value lists, the
insertion order of the Python dict; `objGet` takes the *last* binding for a
key, matching how repeated assignments into a dict resolve. -/

inductive JVal where
  | jnull : JVal
  | jbool (b : Bool) : JVal
  | jnum (n : Int) : JVal
  | jflt (tok : List Char) (h : isFloatTok tok = true) : JVal
  | jstr (s : List Char) : JVal
  | jarr (xs : List JVal) : JVal
  | jobj (kvs : List (List Char × JVal)) : JVal

/-- Dict lookup: the value of the last binding of `k`, if any. -/
def objGet (kvs : List (List Char × JVal)) (k : List Char) : Option JVal :=
  match kvs with
  | [] => none
  | (k', v) :: rest =>
    match objGet rest k with
    | some w => some w
    | none => if k' = k then some v else none

/-- `json.dumps` escaping of one character (`ensure_ascii=True`, the default):
printable ASCII goes through bare, `"` and `\` and the named control
characters get two-character escapes, everything else becomes `\uXXXX`
(a surrogate pair for astral-plane characters). -/
def escapeCh (c : Char) : List Char :=
  if c = '"' then ['\\', '"']
  else if c = '\\' then ['\\', '\\']
  else if 0x20 ≤ c.toNat && c.toNat ≤ 0x7e then [c]
  else if c = '\x08' then ['\\', 'b']
  else if c = '\x09' then ['\\', 't']
  else if c = '\x0a' then ['\\', 'n']
  else if c = '\x0c' then ['\\', 'f']
  else if c = '\x0d' then ['\\', 'r']
  else if c.toNat < 0x10000 then '\\' :: 'u' :: hex4 c.toNat
  else
    ('\\' :: 'u' :: hex4 (0xd800 + (c.toNat - 0x10000) / 0x400)) ++
      ('\\' :: 'u' :: hex4 (0xdc00 + (c.toNat - 0x10000) % 0x400))

/-- Escape a whole string body. -/
def escapeStr : List Char → List Char
  | [] => []
  | c :: cs => escapeCh c ++ escapeStr cs

/-- The serialised form of a JSON string: quoted, body escaped. -/
def dumpStr (s : List Char) : List Char := '"' :: escapeStr s ++ ['"']

/-- The serialised form of an integer, as Python prints an `int`. -/
def dumpInt (n : Int) : List Char :=
  if n < 0 then '-' :: natDigits (-n).toNat else natDigits n.toNat

mutual

/-- `json.dumps` with its defaults: separators `", "` and `": "`, no indent,
`ensure_ascii` escaping. -/
def dumpVal : JVal → List Char
  | .jnull => ['n', 'u', 'l', 'l']
  | .jbool true => ['t', 'r', 'u', 'e']
  | .jbool false => ['f', 'a', 'l', 's', 'e']
  | .jnum n => dumpInt n
  | .jflt tok _ => tok
  | .jstr s => dumpStr s
  | .jarr xs => '[' :: dumpArrItems xs ++ [']']
  | .jobj kvs => '\x7b' :: dumpObjItems kvs ++ ['\x7d']

/-- Array elements joined by `", "`. -/
def dumpArrItems : List JVal → List Char
  | [] => []
  | [x] => dumpVal x
  | x :: y :: xs => dumpVal x ++ ',' :: ' ' :: dumpArrItems (y :: xs)

/-- Object members `"key": value` joined by `", "`. -/
def dumpObjItems : List (List Char × JVal) → List Char
  | [] => []
  | [(k, v)] => dumpStr k ++ ':' :: ' ' :: dumpVal v
  | (k, v) :: m :: kvs => dumpStr k ++ ':' :: ' ' :: dumpVal v ++ ',' :: ' ' :: dumpObjItems (m :: kvs)

end

/-! ### The `json.loads` model

A recursive-descent parser over `List Char`, structural on a `fuel`
argument that strictly decreases at every recursive call; `loads` passes
`length + 1`-sized fuel and the round-trip theorems show this is ample for
every serialised payload.  `none` models the `json.JSONDecodeError` the
Python decoder raises.  Acceptance matches `json.loads` with its defaults:
float literals and the `NaN`/`Infinity`/`-Infinity` constants are accepted
(kept as tokens), and a lone surrogate in a `\uXXXX` escape is accepted as
Python accepts it; Lean's `Char` cannot carry a surrogate scalar, so the
lone unit stands as U+FFFD — one character, like Python's one-character
lone-surrogate string, and no theorem inspects such a value. -/

/-- Skip inter-token JSON whitespace. -/
def skipJWs (s : List Char) : List Char := s.dropWhile fun c => isJWs c

/-- Four hex digits, as in an `\uXXXX` escape. -/
def hexQuad : List Char → Option (Nat × List Char)
  | a :: b :: c :: d :: rest =>
    match hexChVal a, hexChVal b, hexChVal c, hexChVal d with
    | some va, some vb, some vc, some vd =>
      some (((va * 16 + vb) * 16 + vc) * 16 + vd, rest)
    | _, _, _, _ => none
  | _ => none

/-- The two-character escapes the JSON grammar admits. -/
def escDecode (e : Char) : Option Char :=
  match e with
  | '"' => some '"'
  | '\\' => some '\\'
  | '/' => some '/'
  | 'b' => some '\x08'
  | 'f' => some '\x0c'
  | 'n' => some '\n'
  | 'r' => some '\r'
  | 't' => some '\t'
  | _ => none

/-- String body after the opening quote: plain characters (control characters
are rejected, as with `strict=True`), escapes, and `\uXXXX` units, a
high/low surrogate pair combining into one scalar.  A lone surrogate unit
is accepted, as `scanstring` accepts it, standing as U+FFFD (Python keeps
the lone surrogate in the `str`; Lean's `Char` cannot, and no theorem looks
at the value).  A high unit followed by `\u` and bad hex is an error, as
in the source, where the second hex decode raises. -/
def parseStrBody : Nat → List Char → Option (List Char × List Char)
  | 0, _ => none
  | _, [] => none
  | fuel + 1, c :: cs =>
    if c = '"' then some ([], cs)
    else if c = '\\' then
      match cs with
      | [] => none
      | e :: cs1 =>
        if e = 'u' then
          match hexQuad cs1 with
          | none => none
          | some (u, cs2) =>
            if 0xd800 ≤ u && u ≤ 0xdbff then
              match cs2 with
              | '\\' :: 'u' :: cs3 =>
                match hexQuad cs3 with
                | none => none
                | some (u2, cs4) =>
                  if 0xdc00 ≤ u2 && u2 ≤ 0xdfff then
                    (parseStrBody fuel cs4).map fun p =>
                      (Char.ofNat (0x10000 + (u - 0xd800) * 0x400 + (u2 - 0xdc00)) :: p.1, p.2)
                  else
                    (parseStrBody fuel cs2).map fun p => ('\uFFFD' :: p.1, p.2)
              | _ => (parseStrBody fuel cs2).map fun p => ('\uFFFD' :: p.1, p.2)
            else if 0xdc00 ≤ u && u ≤ 0xdfff then
              (parseStrBody fuel cs2).map fun p => ('\uFFFD' :: p.1, p.2)
            else (parseStrBody fuel cs2).map fun p => (Char.ofNat u :: p.1, p.2)
        else
          match escDecode e with
          | none => none
          | some d => (parseStrBody fuel cs1).map fun p => (d :: p.1, p.2)
    else if c.toNat < 0x20 then none
    else (parseStrBody fuel cs).map fun p => (c :: p.1, p.2)

/-- Number literal at `c :: s0` (first char `-` or a digit).  Follows the
scanner's number regular expression: an optional minus, `0` or a
no-leading-zero digit run, then an optional fraction and/or exponent; with
neither the value is the exact integer, otherwise the float token is kept
whole.  A bare minus may also start the `-Infinity` constant, checked — as
the scanner checks it — only after the number match fails.  The
well-formedness test on the assembled token always succeeds
(`parseIntLit_flt_built`); it carries the proof the `jflt` constructor
wants. -/
def parseIntLit (c : Char) (s0 : List Char) : Option (JVal × List Char) :=
  match grabDigits (if c = '-' then s0 else c :: s0) with
  | ([], _) =>
    match c, s0 with
    | '-', 'I' :: 'n' :: 'f' :: 'i' :: 'n' :: 'i' :: 't' :: 'y' :: r =>
      some (.jflt (("-Infinity").toList) (by decide), r)
    | _, _ => none
  | (d0 :: ds, rem) =>
    let q : List Char × List Char :=
      if d0 = '0' && ds ≠ [] then ([d0], ds ++ rem) else (d0 :: ds, rem)
    match floatTail q.2 with
    | some (ft, r2) =>
      let tok := (if c = '-' then ['-'] else []) ++ q.1 ++ ft
      if h : isFloatTok tok = true then some (.jflt tok h, r2) else none
    | none => some (.jnum ((if c = '-' then -1 else 1) * (digitsVal q.1 : Int)), q.2)

mutual

/-- One JSON value, leading whitespace allowed. -/
def parseVal : Nat → List Char → Option (JVal × List Char)
  | 0, _ => none
  | fuel + 1, s =>
    match skipJWs s with
    | 'n' :: 'u' :: 'l' :: 'l' :: r => some (.jnull, r)
    | 't' :: 'r' :: 'u' :: 'e' :: r => some (.jbool true, r)
    | 'f' :: 'a' :: 'l' :: 's' :: 'e' :: r => some (.jbool false, r)
    | '"' :: r => (parseStrBody fuel r).map fun p => (.jstr p.1, p.2)
    | '[' :: r =>
      match skipJWs r with
      | ']' :: r1 => some (.jarr [], r1)
      | r1 => (parseArrMore fuel r1).map fun p => (.jarr p.1, p.2)
    | '\x7b' :: r =>
      match skipJWs r with
      | '\x7d' :: r1 => some (.jobj [], r1)
      | r1 => (parseObjMore fuel r1).map fun p => (.jobj p.1, p.2)
    | c :: r =>
      if c = 'N' then
        match r with
        | 'a' :: 'N' :: r2 => some (.jflt (("NaN").toList) (by decide), r2)
        | _ => none
      else if c = 'I' then
        match r with
        | 'n' :: 'f' :: 'i' :: 'n' :: 'i' :: 't' :: 'y' :: r2 =>
          some (.jflt (("Infinity").toList) (by decide), r2)
        | _ => none
      else if c = '-' || isDigitCh c then parseIntLit c r else none
    | [] => none

/-- One or more comma-separated array elements, then the closing bracket. -/
def parseArrMore : Nat → List Char → Option (List JVal × List Char)
  | 0, _ => none
  | fuel + 1, s =>
    match parseVal fuel s with
    | none => none
    | some (v, r) =>
      match skipJWs r with
      | ',' :: r1 => (parseArrMore fuel (skipJWs r1)).map fun p => (v :: p.1, p.2)
      | ']' :: r1 => some ([v], r1)
      | _ => none

/-- One or more comma-separated `"key": value` members, then the closing
brace. -/
def parseObjMore : Nat → List Char → Option (List (List Char × JVal) × List Char)
  | 0, _ => none
  | fuel + 1, s =>
    match s with
    | '"' :: r =>
      match parseStrBody fuel r with
      | none => none
      | some (k, r1) =>
        match skipJWs r1 with
        | ':' :: r2 =>
          match parseVal fuel r2 with
          | none => none
          | some (v, r3) =>
            match skipJWs r3 with
            | ',' :: r4 =>
              (parseObjMore fuel (skipJWs r4)).map fun p => ((k, v) :: p.1, p.2)
            | '\x7d' :: r4 => some ([(k, v)], r4)
            | _ => none
        | _ => none
    | _ => none

end

/-- `json.loads`: one JSON document, whitespace allowed on both sides,
anything further is an error. -/
def loads (s : List Char) : Option JVal :=
  match parseVal (s.length + 1) s with
  | some (v, r) => if skipJWs r = [] then some v else none
  | none => none

/-! ### Frame encoding — `send` -/

/-- The `Content-Type` header line `send` writes first, to exercise the
server's header parsing. -/
def ctHeader : List Char := ("Content-Type: application/vscode-jsonrpc; charset=utf-8\r\n").toList

/-- The start of the `Content-Length` header line. -/
def clHead : List Char := ("Content-Length: ").toList

/-- The bytes `send(msg)` writes to the child's stdin: the `Content-Type`
line, then `Content-Length: <utf-8 byte count of the body>`, a blank line,
and the `json.dumps` body. -/
def send (msg : JVal) : List Char :=
  let content := dumpVal msg
  ctHeader ++ clHead ++ natDigits (utf8ByteLen content) ++ '\r' :: '\n' :: '\r' :: '\n' :: content

/-! ### The stdout read loop -/

/-- `readline()` on a byte stream: everything up to and including the first
newline; at end of stream, the empty line. -/
def pyReadline : List Char → List Char × List Char
  | [] => ([], [])
  | c :: cs =>
    if c = '\n' then ([c], cs)
    else
      let p := pyReadline cs
      (c :: p.1, p.2)

/-- `read(n)` on a closed stream: `n` bytes, or all that remain if fewer
(Python returns the short read at end of stream); a negative count reads
everything. -/
def pyRead (n : Int) (s : List Char) : List Char :=
  if n < 0 then s else s.take n.toNat

/-- The stream state after `read(n)`. -/
def pyReadRest (n : Int) (s : List Char) : List Char :=
  if n < 0 then [] else s.drop n.toNat

/-- `str.strip()`: whitespace removed from both ends. -/
def trimWs (l : List Char) : List Char :=
  (((l.dropWhile fun c => isPyWs c).reverse.dropWhile fun c => isPyWs c)).reverse

/-- `pat` begins `s` — the `str.startswith` test. -/
def listStarts : List Char → List Char → Bool
  | p :: ps, c :: cs => p = c && listStarts ps cs
  | [], _ => true
  | _ :: _, [] => false

/-- `line.split(':')[1]`: the text between the first and second colon
(`none` models the `IndexError` when the line has no colon at all). -/
def splitSecond (l : List Char) : Option (List Char) :=
  match l.dropWhile fun c => c ≠ ':' with
  | ':' :: after => some (after.takeWhile fun c => c ≠ ':')
  | _ => none

/-- `int(...)` on an already-stripped string: an optional sign and a
nonempty ASCII digit run (`none` models the raised `ValueError`).  Python
also admits underscore separators and non-ASCII digits; those never occur
here and are outside the model. -/
def pyInt (l : List Char) : Option Int :=
  match l with
  | '-' :: ds => if ds ≠ [] && ds.all isDigitCh then some (-(digitsVal ds : Int)) else none
  | '+' :: ds => if ds ≠ [] && ds.all isDigitCh then some ((digitsVal ds : Int)) else none
  | ds => if ds ≠ [] && ds.all isDigitCh then some ((digitsVal ds : Int)) else none

/-- Substring test, Python's `pat in s` on strings. -/
def containsSub (pat : List Char) (s : List Char) : Bool :=
  if listStarts pat s then true
  else
    match s with
    | [] => false
    | _ :: t => containsSub pat t

/-- Membership of the string `pat` in a JSON array, Python's `pat in xs`
on a list (`==` holds only against equal strings). -/
def jarrHasStr (pat : List Char) (xs : List JVal) : Bool :=
  xs.any fun v =>
    match v with
    | .jstr s => s = pat
    | _ => false

/-- The keys the read loop inspects. -/
def keyError : List Char := ("error").toList

def keyMethod : List Char := ("method").toList

def keyId : List Char := ("id").toList

/-- The classification the read loop prints for one decoded payload:
`RECEIVED ERROR` with the whole payload, `RECEIVED NOTIF` with the method
value, or `RECEIVED RESP` with the `id` value if any (`.get('id')`). -/
inductive Classified where
  | errReply (v : JVal)
  | notif (methodVal : JVal)
  | resp (idVal : Option JVal)

/-- The `if 'error' in msg / elif 'method' in msg / else` chain.  On a
non-dict payload Python's `in` still works for strings (substring) and
lists (membership), but the later subscript or `.get` raises; `none`
models any raised exception, which ends the read loop via the outer
`except`. -/
def classifyMsg (v : JVal) : Option Classified :=
  match v with
  | .jobj kvs =>
    if (objGet kvs keyError).isSome then some (.errReply (.jobj kvs))
    else
      match objGet kvs keyMethod with
      | some mv => some (.notif mv)
      | none => some (.resp (objGet kvs keyId))
  | .jstr s => if containsSub keyError s then some (.errReply (.jstr s)) else none
  | .jarr xs => if jarrHasStr keyError xs then some (.errReply (.jarr xs)) else none
  | _ => none

/-- How the read loop ended: clean end of stream (`if not line: break`), a
caught exception (`except` clause), or fuel exhaustion — the last never
happens at the fuel `decodeStream` supplies (`readLoopF_no_fuelOut`). -/
inductive LoopEnd where
  | eos
  | errored
  | outOfFuel
deriving DecidableEq

/-- The header-line pattern the loop matches. -/
def clPat : List Char := ("Content-Length:").toList

/-- The stdout read loop.  Per iteration: `readline`; stop cleanly on the
empty read; on a `Content-Length` line, parse the count from
`line.split(':')[1].strip()`, discard one line (the expected blank), read
exactly that many bytes, `json.loads` them and classify; every other line
is skipped.  Any raised exception (bad count, undecodable body,
classification on an unsuitable payload) stops the loop with `.errored`.
Each iteration consumes at least one character, so `fuel` bounds
iterations. -/
def readLoopF : Nat → List Char → List (JVal × Classified) × LoopEnd
  | 0, _ => ([], .outOfFuel)
  | fuel + 1, s =>
    let p := pyReadline s
    if p.1 = [] then ([], .eos)
    else if listStarts clPat p.1 then
      match splitSecond p.1 with
      | none => ([], .errored)
      | some seg =>
        match pyInt (trimWs seg) with
        | none => ([], .errored)
        | some cl =>
          let afterBlank := (pyReadline p.2).2
          let body := pyRead cl afterBlank
          match loads body with
          | none => ([], .errored)
          | some v =>
            match classifyMsg v with
            | none => ([], .errored)
            | some c =>
              let q := readLoopF fuel (pyReadRest cl afterBlank)
              ((v, c) :: q.1, q.2)
    else readLoopF fuel p.2

/-- The read loop on a (closed) stream, with ample fuel. -/
def decodeStream (s : List Char) : List (JVal × Classified) × LoopEnd :=
  readLoopF (s.length + 1) s

/-! ### The scripted message sequence -/

/-- The synthetic document URI the script uses. -/
def theUri : JVal := .jstr (("file:///tmp/astar.mml").toList)

def keyJsonrpc : List Char := ("jsonrpc").toList

def keyParams : List Char := ("params").toList

def keyResult : List Char := ("result").toList

def ver20 : JVal := .jstr (("2.0").toList)

/-- Message 1: the `initialize` request, empty params, id 1. -/
def msgInitialize : JVal :=
  .jobj [(keyJsonrpc, ver20), (keyMethod, .jstr (("initialize").toList)),
    (keyParams, .jobj []), (keyId, .jnum 1)]

/-- Message 2: the `initialized` notification, empty params, no id. -/
def msgInitialized : JVal :=
  .jobj [(keyJsonrpc, ver20), (keyMethod, .jstr (("initialized").toList)),
    (keyParams, .jobj [])]

/-- Message 3: the `textDocument/didOpen` notification carrying the URI,
language id `mml`, version 1, and the input file's full text; no id. -/
def msgDidOpen (txt : List Char) : JVal :=
  .jobj [(keyJsonrpc, ver20), (keyMethod, .jstr (("textDocument/didOpen").toList)),
    (keyParams, .jobj [(("textDocument").toList, .jobj
      [(("uri").toList, theUri),
       (("languageId").toList, .jstr (("mml").toList)),
       (("version").toList, .jnum 1),
       (("text").toList, .jstr txt)])])]

/-- Message 4: the `textDocument/semanticTokens/full` request, id 2. -/
def msgSemTokens : JVal :=
  .jobj [(keyJsonrpc, ver20), (keyMethod, .jstr (("textDocument/semanticTokens/full").toList)),
    (keyParams, .jobj [(("textDocument").toList, .jobj [(("uri").toList, theUri)])]),
    (keyId, .jnum 2)]

/-- Message 5: the `textDocument/documentSymbol` request, id 3. -/
def msgDocSymbol : JVal :=
  .jobj [(keyJsonrpc, ver20), (keyMethod, .jstr (("textDocument/documentSymbol").toList)),
    (keyParams, .jobj [(("textDocument").toList, .jobj [(("uri").toList, theUri)])]),
    (keyId, .jnum 3)]

/-- Message 6: the `textDocument/definition` request at line 130,
character 6, id 4. -/
def msgDefinition : JVal :=
  .jobj [(keyJsonrpc, ver20), (keyMethod, .jstr (("textDocument/definition").toList)),
    (keyParams, .jobj
      [(("textDocument").toList, .jobj [(("uri").toList, theUri)]),
       (("position").toList, .jobj
         [(("line").toList, .jnum 130), (("character").toList, .jnum 6)])]),
    (keyId, .jnum 4)]

/-- The six payloads the script sends, in order, as a function of the input
file's text alone: nothing the child replies (or fails to reply) influences
which messages are sent or their order. -/
def scriptMessages (txt : List Char) : List JVal :=
  [msgInitialize, msgInitialized, msgDidOpen txt, msgSemTokens, msgDocSymbol, msgDefinition]

/-! ### The stderr drain — `reader` -/

/-- Strict UTF-8 decoding of a byte sequence (`bytes.decode('utf-8')`):
`none` models the raised `UnicodeDecodeError`.  Overlong forms, surrogates
and out-of-range sequences are rejected, as CPython does. -/
def utf8Decode : List Nat → Option (List Char)
  | [] => some []
  | b :: bs =>
    if b < 0x80 then (utf8Decode bs).map fun t => Char.ofNat b :: t
    else if 0xc2 ≤ b && b ≤ 0xdf then
      match bs with
      | b2 :: bs2 =>
        if 0x80 ≤ b2 && b2 ≤ 0xbf then
          (utf8Decode bs2).map fun t => Char.ofNat ((b - 0xc0) * 64 + (b2 - 0x80)) :: t
        else none
      | [] => none
    else if 0xe0 ≤ b && b ≤ 0xef then
      match bs with
      | b2 :: b3 :: bs3 =>
        let lo2 := if b = 0xe0 then 0xa0 else 0x80
        let hi2 := if b = 0xed then 0x9f else 0xbf
        if lo2 ≤ b2 && b2 ≤ hi2 && 0x80 ≤ b3 && b3 ≤ 0xbf then
          (utf8Decode bs3).map fun t =>
            Char.ofNat (((b - 0xe0) * 64 + (b2 - 0x80)) * 64 + (b3 - 0x80)) :: t
        else none
      | _ => none
    else if 0xf0 ≤ b && b ≤ 0xf4 then
      match bs with
      | b2 :: b3 :: b4 :: bs4 =>
        let lo2 := if b = 0xf0 then 0x90 else 0x80
        let hi2 := if b = 0xf4 then 0x8f else 0xbf
        if lo2 ≤ b2 && b2 ≤ hi2 && 0x80 ≤ b3 && b3 ≤ 0xbf && 0x80 ≤ b4 && b4 ≤ 0xbf then
          (utf8Decode bs4).map fun t =>
            Char.ofNat ((((b - 0xf0) * 64 + (b2 - 0x80)) * 64 + (b3 - 0x80)) * 64 + (b4 - 0x80)) :: t
        else none
      | _ => none
    else none

/-- One `readline()` outcome on the child's stderr: a (nonempty) line of
bytes, or a raised read error. -/
inductive ErrRead where
  | line (bs : List Nat)
  | fail (e : List Char)

/-- One line the drain prints: a tagged diagnostic line, or the single
`Reader <name> error: ...` line from the `except` clause. -/
inductive DrainEntry where
  | diag (name s : List Char)
  | drainFail (name e : List Char)

/-- Whether an entry is the drain-failure line. -/
def DrainEntry.isFail : DrainEntry → Bool
  | .drainFail _ _ => true
  | _ => false

/-- The body of `reader`'s `try` block: consume `readline` results until the
empty read, decoding and printing each line; the second component is the
exception that escaped the body, if any (a failed `readline` or an
undecodable line). -/
def readerBody (name : List Char) : List ErrRead → List DrainEntry × Option (List Char)
  | [] => ([], none)
  | .fail e :: _ => ([], some e)
  | .line bs :: rest =>
    if bs = [] then ([], none)
    else
      match utf8Decode bs with
      | none => ([], some (("UnicodeDecodeError").toList))
      | some s =>
        let p := readerBody name rest
        (.diag name (trimWs s) :: p.1, p.2)

/-- `reader`: the `try` body wrapped in the catch-all `except`, which turns
any escaped exception into exactly one drain-failure line and returns.  The
function is total: no exception crosses the thread boundary. -/
def reader (name : List Char) (es : List ErrRead) : List DrainEntry :=
  match readerBody name es with
  | (out, none) => out
  | (out, some e) => out ++ [.drainFail name e]

/-! ### `run`: the whole session, and cleanup -/

/-- The externally visible steps of `run`, in order. -/
inductive RunEff where
  | sent (msg : JVal)
  | classified (v : JVal) (c : Classified)
  | errorReport
  | terminate

/-- The ordered effects of `run` after the child is spawned, as a function
of how reading the input file went (`none`: `open` raised) and of the bytes
the child wrote to stdout.  The first two sends precede the file read; any
exception inside the `try` jumps to the `except` report; the `finally`
clause runs last on every path. -/
def runEffects (fileTxt : Option (List Char)) (stdout : List Char) : List RunEff :=
  (match fileTxt with
   | none => [.sent msgInitialize, .sent msgInitialized, .errorReport]
   | some txt =>
     (scriptMessages txt).map .sent ++
       (let r := decodeStream stdout
        (r.1.map fun p => .classified p.1 p.2) ++
          (match r.2 with
           | .errored => [.errorReport]
           | _ => []))) ++ [.terminate]

/-- Child-process liveness, for the `terminate()` contract. -/
inductive ProcState where
  | running
  | exited
deriving DecidableEq

/-- `process.terminate()`, per its documented stdlib contract: best-effort
delivery of a stop signal, a no-op that raises nothing when the process
has already exited.  Total, hence exception-free, and idempotent. -/
def terminateProc : ProcState → ProcState
  | _ => .exited

/-! ### Statement-level helpers -/

/-- A valid protocol message: the fixed version tag with any combination of
identifier, method, and params/result/error values (the spec's Message
data model). -/
structure Message where
  idNum : Option Int
  methodName : Option (List Char)
  paramsVal : Option JVal
  resultVal : Option JVal
  errorVal : Option JVal

/-- A field of the payload dict, present only when the message carries it. -/
def optField (k : List Char) : Option JVal → List (List Char × JVal)
  | none => []
  | some v => [(k, v)]

/-- The payload dict a `Message` denotes, as the script would build it:
the version tag first, then whichever of method/params/result/error/id are
present. -/
def toPayload (m : Message) : JVal :=
  .jobj ((keyJsonrpc, ver20) :: (optField keyMethod (m.methodName.map .jstr) ++
    optField keyParams m.paramsVal ++ optField keyResult m.resultVal ++
    optField keyError m.errorVal ++ optField keyId (m.idNum.map .jnum)))

/-- Field access on a decoded payload (dict lookup; `none` on non-dicts). -/
def payloadField (v : JVal) (k : List Char) : Option JVal :=
  match v with
  | .jobj kvs => objGet kvs k
  | _ => none

/-- The integer identifier a payload carries, if any. -/
def payloadIdNum (v : JVal) : Option Int :=
  match payloadField v keyId with
  | some (.jnum n) => some n
  | _ => none

/-- The payload of a `sent` effect. -/
def sentOf : RunEff → Option JVal
  | .sent v => some v
  | _ => none

/-- The remainder cannot extend a decimal literal: empty, or starting with
none of digit, `.`, `e`, `E`.  Holds after any value `json.dumps` embeds
in a document (the next char is `,`, `]`, `\x7d`, or the end). -/
def numStop : List Char → Bool
  | [] => true
  | c :: _ => !(isDigitCh c || c = '.' || c = 'e' || c = 'E')

/-! ### The stdout read loop on the raw byte stream -/

/-- `readline()` on the byte stream itself: everything up to and including
the first newline byte (10); at end of stream, the empty read. -/
def pyReadlineB : List Nat → List Nat × List Nat
  | [] => ([], [])
  | b :: bs =>
    if b = 10 then ([b], bs)
    else
      let p := pyReadlineB bs
      (b :: p.1, p.2)

/-- `read(n)` on the closed byte stream: `n` bytes, or all that remain if
fewer (the short read at end of stream); a negative count reads
everything. -/
def pyReadB (n : Int) (s : List Nat) : List Nat :=
  if n < 0 then s else s.take n.toNat

/-- The byte stream after `read(n)`. -/
def pyReadRestB (n : Int) (s : List Nat) : List Nat :=
  if n < 0 then [] else s.drop n.toNat

/-- The stdout read loop on the raw bytes the child writes.  Per iteration:
`readline()`; stop cleanly on the empty read; decode the line
(`line.decode('utf-8')`); on a `Content-Length` line, parse the count from
`line.split(':')[1].strip()`, discard one raw line (the expected blank,
which is never decoded), read exactly that many bytes, decode them,
`json.loads` the text and classify; every other decoded line is skipped.
Any raised exception — an undecodable line or body, a bad count, a body
that is not one JSON document, classification on an unsuitable payload —
stops the loop with `.errored`.  `readLoopF` above is this loop with the
two decode steps already resolved, for streams of characters that decode
to themselves. -/
def readLpB : Nat → List Nat → List (JVal × Classified) × LoopEnd
  | 0, _ => ([], .outOfFuel)
  | fuel + 1, s =>
    let p := pyReadlineB s
    if p.1 = [] then ([], .eos)
    else
      match utf8Decode p.1 with
      | none => ([], .errored)
      | some line =>
        if listStarts clPat line then
          match splitSecond line with
          | none => ([], .errored)
          | some seg =>
            match pyInt (trimWs seg) with
            | none => ([], .errored)
            | some cl =>
              let afterBlank := (pyReadlineB p.2).2
              match utf8Decode (pyReadB cl afterBlank) with
              | none => ([], .errored)
              | some body =>
                match loads body with
                | none => ([], .errored)
                | some v =>
                  match classifyMsg v with
                  | none => ([], .errored)
                  | some c =>
                    let q := readLpB fuel (pyReadRestB cl afterBlank)
                    ((v, c) :: q.1, q.2)
        else readLpB fuel p.2

/-- The byte-stream read loop on a (closed) stream, with ample fuel. -/
def decodeStrB (s : List Nat) : List (JVal × Classified) × LoopEnd :=
  readLpB (s.length + 1) s

/-- The bytes of an ASCII text, one byte per character. -/
def asciiBytes (s : List Char) : List Nat := s.map Char.toNat

end MmlTool

namespace MmlBench

/-! ### `benchmark/factorial.py` -/

/-- `factorial(n)`: 1 for `n <= 1` (negatives included), else
`n * factorial(n - 1)`. -/
def factorial (n : Int) : Int :=
  if n ≤ 1 then 1 else n * factorial (n - 1)
termination_by n.toNat
decreasing_by omega

/-! ### `benchmark/sieve.py`

The array is a Python list of `0`/`1` cells over the odd numbers: index
`i` stands for `2*i + 1`.  Cells are read with `List.getD _ _ 0`; every
access the program performs is in bounds (proved where used), so the
default never shows through.  The two loops whose step is data-dependent
(`clear_multiples`, the factor loop) take an explicit fuel bounding their
iteration count; callers pass a provably sufficient amount, and
fuel-independence is proved for the factor loop. -/

/-- `init_sieve`: set cells `i, i+1, …, size-1` to 1. -/
def init_sieve (arr : List Nat) (i size : Nat) : List Nat :=
  if i < size then init_sieve (arr.set i 1) (i + 1) size else arr
termination_by size - i

/-- `clear_multiples`: zero cells `num, num+factor, …` below `size`.  The
callers pass `factor ≥ 3`, so `size` fuel covers every iteration. -/
def clear_multiples : Nat → List Nat → Nat → Nat → Nat → List Nat
  | 0, arr, _, _, _ => arr
  | fuel + 1, arr, factor, num, size =>
    if num < size then clear_multiples fuel (arr.set num 0) factor (num + factor) size
    else arr

/-- `find_next_prime`: the first index in `[i, limit]` whose cell is 1,
else 0. -/
def find_next_prime (arr : List Nat) (i limit : Nat) : Nat :=
  if i ≤ limit then
    if arr.getD i 0 = 1 then i else find_next_prime arr (i + 1) limit
  else 0
termination_by limit + 1 - i

/-- `isqrt`: Newton iteration from `guess`, stopping when it no longer
decreases.  (Python would raise `ZeroDivisionError` at `guess = 0`; Lean's
`n / 0 = 0` makes that case return 0 instead.  The one call site keeps
`guess ≥ 1` throughout, where the two agree.) -/
def isqrt (n guess : Nat) : Nat :=
  let next := (guess + n / guess) / 2
  if h : next ≥ guess then guess else isqrt n next
termination_by guess
decreasing_by omega

/-- The `while` accumulation inside `count_primes`. -/
def count_loop (arr : List Nat) (count i size : Nat) : Nat :=
  if i < size then
    count_loop arr (if arr.getD i 0 = 1 then count + 1 else count) (i + 1) size
  else count
termination_by size - i

/-- `count_primes`: 1 (for the prime 2) plus the number of set cells. -/
def count_primes (arr : List Nat) (size : Nat) : Nat := count_loop arr 1 0 size

/-- The factor loop of `run_sieve`: find the next surviving cell in
`[factor/2, q/2]`, stop if none, else clear the odd multiples of its odd
number from its square on and advance.  `factor` grows by at least 2 per
iteration, so `limit + 1` fuel (what `run_sieve` passes) covers every
iteration; `sieve_loop_fuel_succ` proves the result is fuel-independent
beyond that. -/
def sieve_loop : Nat → List Nat → Nat → Nat → Nat → List Nat
  | 0, arr, _, _, _ => arr
  | fuel + 1, arr, factor, q, size =>
    if factor ≤ q then
      let np := find_next_prime arr (factor / 2) (q / 2)
      if np = 0 then arr
      else
        let af := np * 2 + 1
        sieve_loop fuel (clear_multiples size arr af (af * af / 2) size) (af + 2) q size
    else arr

/-- `run_sieve(limit)`: sieve the odds up to `limit` and count. -/
def run_sieve (limit : Nat) : Nat :=
  let size := (limit + 1) / 2
  let arr0 := init_sieve (List.replicate size 0) 0 size
  let arr1 := arr0.set 0 0
  let q := isqrt limit (limit / 2)
  let arr2 := sieve_loop (limit + 1) arr1 3 q size
  count_primes arr2 size

/-- Specification predicate: some odd prime below `factor`, with square not
exceeding `2*j+1`, divides `2*j+1` — exactly the condition under which the
sieve has zeroed cell `j` by the time the factor loop reaches `factor`. -/
def cleared (factor j : Nat) : Prop :=
  ∃ p, Nat.Prime p ∧ p % 2 = 1 ∧ p < factor ∧ p * p ≤ 2 * j + 1 ∧ p ∣ (2 * j + 1)

/-- Specification predicate: the sieve state on entering a factor-loop
iteration: the array spans `size` cells, cell 0 (the number 1) is zeroed,
and every other cell is 0/1-valued, holding 1 exactly while `cleared` does
not yet strike its odd number. -/
def sieveInv (size factor : Nat) (arr : List Nat) : Prop :=
  arr.length = size ∧ arr.getD 0 0 = 0 ∧
    ∀ j, 1 ≤ j → j < size →
      (arr.getD j 0 = 1 ∨ arr.getD j 0 = 0) ∧ (arr.getD j 0 = 1 ↔ ¬cleared factor j)

end MmlBench

/-!
## Theorems

First the toolbox: numerals, escaping, the JSON round trip, the framing
lemmas; then one theorem per specification claim (with its concrete
witness or counterexample).
-/

namespace MmlTool

theorem digitCh_val (d : Nat) (h : d < 10) : digitVal (digitCh d) = d := by
  interval_cases d <;> decide

theorem digitCh_isDigit (d : Nat) (h : d < 10) : isDigitCh (digitCh d) = true := by
  interval_cases d <;> decide

theorem digitCh_zero_iff (d : Nat) (h : d < 10) : digitCh d = '0' ↔ d = 0 := by
  interval_cases d <;> decide

theorem natDigits_ne_nil (n : Nat) : natDigits n ≠ [] := by
  rw [natDigits]
  split
  · simp
  · simp

theorem natDigits_digits (n : Nat) : ∀ c ∈ natDigits n, isDigitCh c = true := by
  induction n using Nat.strong_induction_on with
  | _ n ih =>
    rw [natDigits]
    split
    · next h =>
      intro c hc
      simp only [List.mem_singleton] at hc
      subst hc
      exact digitCh_isDigit n h
    · next h =>
      intro c hc
      rcases List.mem_append.mp hc with hc | hc
      · exact ih (n / 10) (Nat.div_lt_self (by omega) (by omega)) c hc
      · simp only [List.mem_singleton] at hc
        subst hc
        exact digitCh_isDigit _ (Nat.mod_lt _ (by omega))

theorem digitsVal_concat (ds : List Char) (c : Char) :
    digitsVal (ds ++ [c]) = digitsVal ds * 10 + digitVal c := by
  simp [digitsVal, List.foldl_append]

theorem digitsVal_natDigits (n : Nat) : digitsVal (natDigits n) = n := by
  induction n using Nat.strong_induction_on with
  | _ n ih =>
    rw [natDigits]
    split
    · next h =>
      simp [digitsVal, digitCh_val n h]
    · next h =>
      rw [digitsVal_concat, ih (n / 10) (Nat.div_lt_self (by omega) (by omega)),
        digitCh_val _ (Nat.mod_lt _ (by omega))]
      omega

theorem natDigits_no_leading_zero : ∀ n t, natDigits n = '0' :: t → n = 0 := by
  intro n
  induction n using Nat.strong_induction_on with
  | _ n ih =>
    intro t h
    rw [natDigits] at h
    split at h
    · next hlt =>
      have : digitCh n = '0' := by
        simpa using congrArg (fun l => l.headI) h
      exact (digitCh_zero_iff n hlt).mp this
    · next hge =>
      obtain ⟨c0, t0, h0⟩ : ∃ c0 t0, natDigits (n / 10) = c0 :: t0 := by
        cases hnd : natDigits (n / 10) with
        | nil => exact absurd hnd (natDigits_ne_nil _)
        | cons a b => exact ⟨a, b, rfl⟩
      rw [h0] at h
      simp only [List.cons_append, List.cons.injEq] at h
      have h0' : natDigits (n / 10) = '0' :: t0 := by
        rw [h0, h.1]
      have : n / 10 = 0 := ih (n / 10) (Nat.div_lt_self (by omega) (by omega)) t0 h0'
      omega

theorem grabDigits_digits_append (ds rest : List Char) (hds : ∀ c ∈ ds, isDigitCh c = true)
    (hrest : numStop rest = true ∨ rest = [] ∨ isDigitCh rest.headI = false) :
    grabDigits (ds ++ rest) = (ds, rest) := by
  induction ds with
  | nil =>
    simp only [List.nil_append]
    cases rest with
    | nil => rfl
    | cons c t =>
      have hc : isDigitCh c = false := by
        rcases hrest with h | h | h
        · simp only [numStop, Bool.not_eq_true'] at h
          simp only [Bool.or_eq_false_iff] at h
          exact h.1.1.1
        · exact absurd h (by simp)
        · simpa using h
      simp [grabDigits, hc]
  | cons c t ih =>
    have hc : isDigitCh c = true := hds c (by simp)
    have ht := ih fun x hx => hds x (by simp [hx])
    simp [grabDigits, hc, ht]

theorem char_code_valid (c : Char) : c.toNat < 0xd800 ∨ (0xdfff < c.toNat ∧ c.toNat < 0x110000) := by
  rcases c.valid with h | h
  · exact Or.inl h
  · exact Or.inr h

theorem hexChVal_hexCh (d : Nat) (h : d < 16) : hexChVal (hexCh d) = some d := by
  interval_cases d <;> decide

theorem hexQuad_hex4 (n : Nat) (h : n < 0x10000) (rest : List Char) :
    hexQuad (hex4 n ++ rest) = some (n, rest) := by
  have h16 : ∀ m : Nat, m % 16 < 16 := fun m => Nat.mod_lt _ (by omega)
  simp only [hex4, List.cons_append, List.nil_append, hexQuad,
    hexChVal_hexCh _ (h16 _)]
  have : ((n / 4096 % 16 * 16 + n / 256 % 16) * 16 + n / 16 % 16) * 16 + n % 16 = n := by
    omega
  rw [this]

theorem parseStrBody_uEsc (fuel : Nat) (u : Nat) (hu : u < 0x10000)
    (hno : ¬(0xd800 ≤ u ∧ u ≤ 0xdfff)) (r : List Char) :
    parseStrBody (fuel + 1) ('\\' :: 'u' :: (hex4 u ++ r)) =
      (parseStrBody fuel r).map fun p => (Char.ofNat u :: p.1, p.2) := by
  have hq := hexQuad_hex4 u hu r
  have hs1 : (decide (0xd800 ≤ u) && decide (u ≤ 0xdbff)) = false := by
    simp only [Bool.and_eq_false_iff, decide_eq_false_iff_not]
    omega
  have hs2 : (decide (0xdc00 ≤ u) && decide (u ≤ 0xdfff)) = false := by
    simp only [Bool.and_eq_false_iff, decide_eq_false_iff_not]
    omega
  simp [parseStrBody, hq, hs1, hs2]

theorem parseStrBody_pairEsc (fuel : Nat) (u1 u2 : Nat)
    (h1 : 0xd800 ≤ u1 ∧ u1 ≤ 0xdbff) (h2 : 0xdc00 ≤ u2 ∧ u2 ≤ 0xdfff) (r : List Char) :
    parseStrBody (fuel + 1) ('\\' :: 'u' :: (hex4 u1 ++ ('\\' :: 'u' :: (hex4 u2 ++ r)))) =
      (parseStrBody fuel r).map fun p =>
        (Char.ofNat (0x10000 + (u1 - 0xd800) * 0x400 + (u2 - 0xdc00)) :: p.1, p.2) := by
  have hq1 := hexQuad_hex4 u1 (by omega) ('\\' :: 'u' :: (hex4 u2 ++ r))
  have hq2 := hexQuad_hex4 u2 (by omega) r
  have hs1 : (decide (0xd800 ≤ u1) && decide (u1 ≤ 0xdbff)) = true := by
    simp only [Bool.and_eq_true, decide_eq_true_eq]
    omega
  have hs2 : (decide (0xdc00 ≤ u2) && decide (u2 ≤ 0xdfff)) = true := by
    simp only [Bool.and_eq_true, decide_eq_true_eq]
    omega
  simp [parseStrBody, hq1, hq2, hs1, hs2]

theorem parseStrBody_escCh (c : Char) (fuel : Nat) (r : List Char) :
    parseStrBody (fuel + 1) (escapeCh c ++ r) =
      (parseStrBody fuel r).map fun p => (c :: p.1, p.2) := by
  by_cases h1 : c = '"'
  · subst h1
    simp [escapeCh, parseStrBody, escDecode]
  by_cases h2 : c = '\\'
  · subst h2
    simp [escapeCh, parseStrBody, escDecode]
  by_cases h3 : (0x20 ≤ c.toNat && c.toNat ≤ 0x7e) = true
  · have hesc : escapeCh c = [c] := by
      simp [escapeCh, h1, h2, h3]
    have h3' : ¬(c.toNat < 0x20) := by
      simp only [Bool.and_eq_true, decide_eq_true_eq] at h3
      omega
    rw [hesc]
    simp only [List.singleton_append, parseStrBody]
    rw [if_neg h1, if_neg h2, if_neg h3']
    simp
  by_cases h4 : c = '\x08'
  · subst h4
    simp [escapeCh, parseStrBody, escDecode]
  by_cases h5 : c = '\x09'
  · subst h5
    simp [escapeCh, parseStrBody, escDecode]
  by_cases h6 : c = '\x0a'
  · subst h6
    simp [escapeCh, parseStrBody, escDecode]
  by_cases h7 : c = '\x0c'
  · subst h7
    simp [escapeCh, parseStrBody, escDecode]
  by_cases h8 : c = '\x0d'
  · subst h8
    simp [escapeCh, parseStrBody, escDecode]
  by_cases h9 : c.toNat < 0x10000
  · have hesc : escapeCh c = '\\' :: 'u' :: hex4 c.toNat := by
      rw [escapeCh, if_neg h1, if_neg h2, if_neg h3, if_neg h4, if_neg h5, if_neg h6,
        if_neg h7, if_neg h8, if_pos h9]
    have hnotsur : ¬(0xd800 ≤ c.toNat ∧ c.toNat ≤ 0xdfff) := by
      rcases char_code_valid c with hv | hv <;> omega
    rw [hesc, List.cons_append, List.cons_append,
      parseStrBody_uEsc fuel c.toNat h9 hnotsur r, Char.ofNat_toNat]
  · have hesc : escapeCh c =
        ('\\' :: 'u' :: hex4 (0xd800 + (c.toNat - 0x10000) / 0x400)) ++
          ('\\' :: 'u' :: hex4 (0xdc00 + (c.toNat - 0x10000) % 0x400)) := by
      rw [escapeCh, if_neg h1, if_neg h2, if_neg h3, if_neg h4, if_neg h5, if_neg h6,
        if_neg h7, if_neg h8, if_neg h9]
    have hbound : c.toNat < 0x110000 := by
      rcases char_code_valid c with hv | hv <;> omega
    have harr : escapeCh c ++ r =
        '\\' :: 'u' :: (hex4 (0xd800 + (c.toNat - 0x10000) / 0x400) ++
          ('\\' :: 'u' :: (hex4 (0xdc00 + (c.toNat - 0x10000) % 0x400) ++ r))) := by
      rw [hesc]
      simp [List.cons_append, List.append_assoc]
    rw [harr, parseStrBody_pairEsc fuel _ _ (by omega) (by omega) r]
    have hcode : 0x10000 + (0xd800 + (c.toNat - 0x10000) / 0x400 - 0xd800) * 0x400 +
        (0xdc00 + (c.toNat - 0x10000) % 0x400 - 0xdc00) = c.toNat := by
      omega
    rw [hcode, Char.ofNat_toNat]

theorem parseStrBody_escapeStr (s : List Char) : ∀ fuel r, s.length < fuel →
    parseStrBody fuel (escapeStr s ++ '"' :: r) = some (s, r) := by
  induction s with
  | nil =>
    intro fuel r hf
    obtain ⟨f, rfl⟩ : ∃ f, fuel = f + 1 := ⟨fuel - 1, by omega⟩
    simp [escapeStr, parseStrBody]
  | cons c cs ih =>
    intro fuel r hf
    obtain ⟨f, rfl⟩ : ∃ f, fuel = f + 1 := ⟨fuel - 1, by omega⟩
    rw [escapeStr, List.append_assoc, parseStrBody_escCh,
      ih f r (by simp at hf; omega)]
    rfl

theorem hexCh_ascii (d : Nat) (h : d < 16) :
    0x20 ≤ (hexCh d).toNat ∧ (hexCh d).toNat ≤ 0x7e := by
  interval_cases d <;> decide

theorem digitCh_ascii (d : Nat) (h : d < 10) :
    0x20 ≤ (digitCh d).toNat ∧ (digitCh d).toNat ≤ 0x7e := by
  interval_cases d <;> decide

theorem mem_uEsc_ascii (u : Nat) (x : Char) (hx : x ∈ '\\' :: 'u' :: hex4 u) :
    0x20 ≤ x.toNat ∧ x.toNat ≤ 0x7e := by
  have h16 : ∀ m : Nat, m % 16 < 16 := fun m => Nat.mod_lt _ (by omega)
  simp only [hex4, List.mem_cons, List.not_mem_nil, or_false] at hx
  rcases hx with rfl | rfl | rfl | rfl | rfl | rfl
  · decide
  · decide
  · exact hexCh_ascii _ (h16 _)
  · exact hexCh_ascii _ (h16 _)
  · exact hexCh_ascii _ (h16 _)
  · exact hexCh_ascii _ (h16 _)

theorem escapeCh_ascii (c : Char) : ∀ x ∈ escapeCh c, 0x20 ≤ x.toNat ∧ x.toNat ≤ 0x7e := by
  intro x hx
  rw [escapeCh] at hx
  split_ifs at hx with h1 h2 h3 h4 h5 h6 h7 h8 h9
  · simp only [List.mem_cons, List.not_mem_nil, or_false] at hx
    rcases hx with rfl | rfl <;> decide
  · simp only [List.mem_cons, List.not_mem_nil, or_false] at hx
    rcases hx with rfl | rfl <;> decide
  · simp only [List.mem_singleton] at hx
    subst hx
    simp only [Bool.and_eq_true, decide_eq_true_eq] at h3
    exact h3
  · simp only [List.mem_cons, List.not_mem_nil, or_false] at hx
    rcases hx with rfl | rfl <;> decide
  · simp only [List.mem_cons, List.not_mem_nil, or_false] at hx
    rcases hx with rfl | rfl <;> decide
  · simp only [List.mem_cons, List.not_mem_nil, or_false] at hx
    rcases hx with rfl | rfl <;> decide
  · simp only [List.mem_cons, List.not_mem_nil, or_false] at hx
    rcases hx with rfl | rfl <;> decide
  · simp only [List.mem_cons, List.not_mem_nil, or_false] at hx
    rcases hx with rfl | rfl <;> decide
  · exact mem_uEsc_ascii _ x hx
  · rcases List.mem_append.mp hx with h | h
    · exact mem_uEsc_ascii _ x h
    · exact mem_uEsc_ascii _ x h

theorem escapeStr_ascii (s : List Char) :
    ∀ x ∈ escapeStr s, 0x20 ≤ x.toNat ∧ x.toNat ≤ 0x7e := by
  induction s with
  | nil => simp [escapeStr]
  | cons c cs ih =>
    intro x hx
    rw [escapeStr] at hx
    rcases List.mem_append.mp hx with h | h
    · exact escapeCh_ascii c x h
    · exact ih x h

theorem natDigits_ascii (n : Nat) :
    ∀ x ∈ natDigits n, 0x20 ≤ x.toNat ∧ x.toNat ≤ 0x7e := by
  intro x hx
  have := natDigits_digits n x hx
  simp only [isDigitCh, Bool.and_eq_true, decide_eq_true_eq] at this
  omega

theorem dumpInt_ascii (n : Int) :
    ∀ x ∈ dumpInt n, 0x20 ≤ x.toNat ∧ x.toNat ≤ 0x7e := by
  intro x hx
  rw [dumpInt] at hx
  split_ifs at hx
  · simp only [List.mem_cons] at hx
    rcases hx with rfl | h
    · decide
    · exact natDigits_ascii _ x h
  · exact natDigits_ascii _ x hx


theorem digit_ne_ch (c a : Char) (h : isDigitCh c = true) (ha : isDigitCh a = false) :
    c ≠ a := by
  intro he
  subst he
  rw [h] at ha
  cases ha

theorem digit_not_jws (c : Char) (h : isDigitCh c = true) : isJWs c = false := by
  simp only [isDigitCh, Bool.and_eq_true, decide_eq_true_eq] at h
  simp only [isJWs, Bool.or_eq_false_iff, decide_eq_false_iff_not]
  refine ⟨⟨⟨?_, ?_⟩, ?_⟩, ?_⟩ <;> rintro rfl <;> revert h <;> decide

theorem digit_not_pyws (c : Char) (h : isDigitCh c = true) : isPyWs c = false := by
  simp only [isDigitCh, Bool.and_eq_true, decide_eq_true_eq] at h
  simp only [isPyWs, Bool.or_eq_false_iff, decide_eq_false_iff_not]
  refine ⟨⟨⟨⟨⟨?_, ?_⟩, ?_⟩, ?_⟩, ?_⟩, ?_⟩ <;> rintro rfl <;> revert h <;> decide

theorem numStop_head (c : Char) (t : List Char) (h : numStop (c :: t) = true) :
    isDigitCh c = false ∧ c ≠ '.' ∧ c ≠ 'e' ∧ c ≠ 'E' := by
  simp only [numStop, Bool.not_eq_true', Bool.or_eq_false_iff,
    decide_eq_false_iff_not] at h
  exact ⟨h.1.1.1, h.1.1.2, h.1.2, h.2⟩

theorem skipJWs_cons_of (c : Char) (t : List Char) (h : isJWs c = false) :
    skipJWs (c :: t) = c :: t := by
  simp [skipJWs, List.dropWhile_cons, h]

theorem natDigits_head : ∀ n : Nat, ∃ d ds, natDigits n = d :: ds ∧ isDigitCh d = true := by
  intro n
  cases hnd : natDigits n with
  | nil => exact absurd hnd (natDigits_ne_nil _)
  | cons d ds =>
    exact ⟨d, ds, rfl, natDigits_digits n d (hnd ▸ List.mem_cons_self _ _)⟩

theorem grabDigits_eq : ∀ s : List Char,
    (grabDigits s).1 ++ (grabDigits s).2 = s ∧
    (∀ x ∈ (grabDigits s).1, isDigitCh x = true) ∧
    (∀ c t, (grabDigits s).2 = c :: t → isDigitCh c = false) := by
  intro s
  induction s with
  | nil => exact ⟨rfl, by simp [grabDigits], by simp [grabDigits]⟩
  | cons c cs ih =>
    obtain ⟨ih1, ih2, ih3⟩ := ih
    by_cases hc : isDigitCh c = true
    · simp only [grabDigits, hc, if_true]
      refine ⟨by simp [ih1], ?_, ih3⟩
      intro x hx
      rcases List.mem_cons.mp hx with rfl | hx
      · exact hc
      · exact ih2 x hx
    · have hc2 : isDigitCh c = false := by simpa using hc
      simp only [grabDigits, hc2, Bool.false_eq_true, if_false]
      refine ⟨rfl, by simp, ?_⟩
      intro a t he
      injection he with he1 _
      subst he1
      exact hc2

theorem numStop_bound (rest : List Char) (hr : numStop rest = true) :
    ∀ c t, rest = c :: t → isDigitCh c = false ∧ c ≠ '.' ∧ c ≠ 'e' ∧ c ≠ 'E' := by
  intro c t he
  subst he
  exact numStop_head c t hr

theorem digitsTok_mk (pre ds : List Char) (hne : ds ≠ [])
    (hds : ∀ x ∈ ds, isDigitCh x = true)
    (r : List Char) (hr : ∀ c t, r = c :: t → isDigitCh c = false) :
    digitsTok pre (ds ++ r) = some (pre ++ ds, r) := by
  have hrest : numStop r = true ∨ r = [] ∨ isDigitCh r.headI = false := by
    cases r with
    | nil => exact Or.inr (Or.inl rfl)
    | cons a b => exact Or.inr (Or.inr (by simpa using hr a b rfl))
  rw [digitsTok]
  simp only [grabDigits_digits_append _ _ hds hrest]
  rw [if_neg hne]

theorem digitsTok_split (pre s f r : List Char) (h : digitsTok pre s = some (f, r)) :
    ∃ ds, f = pre ++ ds ∧ ds ≠ [] ∧ (∀ x ∈ ds, isDigitCh x = true) ∧ s = ds ++ r ∧
      (∀ c t, r = c :: t → isDigitCh c = false) := by
  rw [digitsTok] at h
  by_cases hgd : (grabDigits s).1 = []
  · rw [if_pos hgd] at h
    exact absurd h (by simp)
  · rw [if_neg hgd] at h
    simp only [Option.some.injEq, Prod.mk.injEq] at h
    obtain ⟨hf, hrr⟩ := h
    obtain ⟨hg1, hg2, hg3⟩ := grabDigits_eq s
    refine ⟨(grabDigits s).1, hf.symm, hgd, hg2, ?_, ?_⟩
    · rw [← hrr]
      exact hg1.symm
    · intro c t he
      exact hg3 c t (hrr ▸ he)

theorem fracTail_mk (ds : List Char) (hne : ds ≠ []) (hds : ∀ x ∈ ds, isDigitCh x = true)
    (r : List Char) (hr : ∀ c t, r = c :: t → isDigitCh c = false) :
    fracTail ('.' :: (ds ++ r)) = some ('.' :: ds, r) := by
  rw [fracTail, if_pos rfl, digitsTok_mk ['.'] ds hne hds r hr]
  rfl

theorem fracTail_split (s f r : List Char) (h : fracTail s = some (f, r)) :
    ∃ ds, f = '.' :: ds ∧ ds ≠ [] ∧ (∀ x ∈ ds, isDigitCh x = true) ∧ s = f ++ r ∧
      (∀ c t, r = c :: t → isDigitCh c = false) := by
  cases s with
  | nil => exact absurd h (by rw [fracTail]; simp)
  | cons c t =>
    rw [fracTail] at h
    by_cases hc : c = '.'
    · rw [if_pos hc] at h
      subst hc
      obtain ⟨ds, hf, hne, hds, ht, hb⟩ := digitsTok_split ['.'] t f r h
      refine ⟨ds, hf, hne, hds, ?_, hb⟩
      rw [hf, ht]
      rfl
    · rw [if_neg hc] at h
      exact absurd h (by simp)

theorem expTail_mk_nosign (e : Char) (he : e = 'e' ∨ e = 'E') (ds : List Char)
    (hne : ds ≠ []) (hds : ∀ x ∈ ds, isDigitCh x = true)
    (r : List Char) (hr : ∀ c t, r = c :: t → isDigitCh c = false) :
    expTail (e :: (ds ++ r)) = some (e :: ds, r) := by
  obtain ⟨d, ds2, rfl⟩ : ∃ d ds2, ds = d :: ds2 := by
    cases ds with
    | nil => exact absurd rfl hne
    | cons a b => exact ⟨a, b, rfl⟩
  have hd : isDigitCh d = true := hds d (by simp)
  have hdp : ¬(d = '+' || d = '-') = true := by
    simp only [Bool.or_eq_true, decide_eq_true_eq, not_or]
    exact ⟨digit_ne_ch d '+' hd (by decide), digit_ne_ch d '-' hd (by decide)⟩
  rw [expTail, if_pos (by rcases he with rfl | rfl <;> simp), List.cons_append,
    expTailAfter, if_neg hdp, ← List.cons_append,
    digitsTok_mk [e] (d :: ds2) hne hds r hr]
  rfl

theorem expTail_mk_sign (e sgn : Char) (he : e = 'e' ∨ e = 'E')
    (hsgn : sgn = '+' ∨ sgn = '-') (ds : List Char)
    (hne : ds ≠ []) (hds : ∀ x ∈ ds, isDigitCh x = true)
    (r : List Char) (hr : ∀ c t, r = c :: t → isDigitCh c = false) :
    expTail (e :: sgn :: (ds ++ r)) = some (e :: sgn :: ds, r) := by
  rw [expTail, if_pos (by rcases he with rfl | rfl <;> simp), expTailAfter,
    if_pos (by rcases hsgn with rfl | rfl <;> simp),
    digitsTok_mk [e, sgn] ds hne hds r hr]
  rfl

theorem expTail_split (s g r : List Char) (h : expTail s = some (g, r)) :
    ∃ e tl, g = e :: tl ∧ (e = 'e' ∨ e = 'E') ∧ s = g ++ r ∧
      (∀ c t, r = c :: t → isDigitCh c = false) ∧
      ((tl ≠ [] ∧ ∀ x ∈ tl, isDigitCh x = true) ∨
        (∃ sgn ds, tl = sgn :: ds ∧ (sgn = '+' ∨ sgn = '-') ∧ ds ≠ [] ∧
          ∀ x ∈ ds, isDigitCh x = true)) := by
  cases s with
  | nil => exact absurd h (by rw [expTail]; simp)
  | cons e t =>
    rw [expTail] at h
    by_cases hc : (e = 'e' || e = 'E') = true
    · rw [if_pos hc] at h
      have he : e = 'e' ∨ e = 'E' := by simpa using hc
      cases t with
      | nil => exact absurd h (by rw [expTailAfter]; simp)
      | cons c r1 =>
        rw [expTailAfter] at h
        by_cases hsgn : (c = '+' || c = '-') = true
        · rw [if_pos hsgn] at h
          obtain ⟨ds, hf, hne, hds, ht, hb⟩ := digitsTok_split [e, c] r1 g r h
          refine ⟨e, c :: ds, by rw [hf]; rfl, he, ?_, hb,
            Or.inr ⟨c, ds, rfl, by simpa using hsgn, hne, hds⟩⟩
          rw [hf, ht]
          rfl
        · rw [if_neg hsgn] at h
          obtain ⟨ds, hf, hne, hds, ht, hb⟩ := digitsTok_split [e] (c :: r1) g r h
          refine ⟨e, ds, by rw [hf]; rfl, he, ?_, hb, Or.inl ⟨hne, hds⟩⟩
          rw [hf, List.append_assoc, ← ht]
          rfl
    · rw [if_neg hc] at h
      exact absurd h (by simp)

theorem floatTail_nil : floatTail [] = none := rfl

theorem floatTail_numStop (rest : List Char) (hr : numStop rest = true) :
    floatTail rest = none := by
  cases rest with
  | nil => rfl
  | cons c t =>
    obtain ⟨hd, h1, h2, h3⟩ := numStop_head c t hr
    have hf : fracTail (c :: t) = none := by rw [fracTail, if_neg h1]
    have he : expTail (c :: t) = none := by
      rw [expTail, if_neg (by simp [h2, h3])]
    simp only [floatTail, hf, he]

theorem floatTail_head (s f r : List Char) (h : floatTail s = some (f, r)) :
    ∃ c t, f = c :: t ∧ isDigitCh c = false ∧ c ≠ '-' ∧ (c = '.' ∨ c = 'e' ∨ c = 'E') := by
  rw [floatTail] at h
  cases hft : fracTail s with
  | some p =>
    obtain ⟨f1, r1⟩ := p
    simp only [hft] at h
    obtain ⟨ds, hds, _, _, _, _⟩ := fracTail_split s f1 r1 hft
    cases hexp : expTail r1 with
    | some q =>
      obtain ⟨g1, r2⟩ := q
      simp only [hexp] at h
      simp only [Option.some.injEq, Prod.mk.injEq] at h
      obtain ⟨hf2, _⟩ := h
      refine ⟨'.', ds ++ g1, ?_, by decide, by decide, Or.inl rfl⟩
      rw [← hf2, hds]
      simp
    | none =>
      simp only [hexp] at h
      simp only [Option.some.injEq, Prod.mk.injEq] at h
      obtain ⟨hf2, _⟩ := h
      exact ⟨'.', ds, by rw [← hf2, hds], by decide, by decide, Or.inl rfl⟩
  | none =>
    simp only [hft] at h
    obtain ⟨e, tl, hg, he, _, _, _⟩ := expTail_split s f r h
    rcases he with rfl | rfl
    · exact ⟨'e', tl, hg, by decide, by decide, Or.inr (Or.inl rfl)⟩
    · exact ⟨'E', tl, hg, by decide, by decide, Or.inr (Or.inr rfl)⟩

theorem floatTail_reparse (s f r : List Char) (h : floatTail s = some (f, r))
    (rest : List Char)
    (hrest : ∀ c t, rest = c :: t → isDigitCh c = false ∧ c ≠ '.' ∧ c ≠ 'e' ∧ c ≠ 'E') :
    floatTail (f ++ rest) = some (f, rest) := by
  have hdig : ∀ c t, rest = c :: t → isDigitCh c = false := fun c t he => (hrest c t he).1
  have hexpnone : expTail rest = none := by
    cases rest with
    | nil => rfl
    | cons c t =>
      obtain ⟨_, _, h2, h3⟩ := hrest c t rfl
      rw [expTail, if_neg (by simp [h2, h3])]
  rw [floatTail] at h
  cases hft : fracTail s with
  | some p =>
    obtain ⟨f1, r1⟩ := p
    simp only [hft] at h
    obtain ⟨ds, hds, hne, hdsd, _, _⟩ := fracTail_split s f1 r1 hft
    cases hexp : expTail r1 with
    | some q =>
      obtain ⟨g1, r2⟩ := q
      simp only [hexp] at h
      simp only [Option.some.injEq, Prod.mk.injEq] at h
      obtain ⟨hf2, hr2⟩ := h
      subst hf2
      subst hr2
      obtain ⟨e, tl, hg, he, _, _, hkind⟩ := expTail_split r1 g1 r2 hexp
      have hghead : ∀ c t, g1 ++ rest = c :: t → isDigitCh c = false := by
        intro c t he2
        rw [hg] at he2
        injection he2 with he3 _
        subst he3
        rcases he with rfl | rfl <;> decide
      have hfrac2 : fracTail ((f1 ++ g1) ++ rest)
          = some (f1, g1 ++ rest) := by
        rw [hds, List.cons_append, List.cons_append, List.append_assoc]
        exact fracTail_mk ds hne hdsd (g1 ++ rest) hghead
      have hexp2 : expTail (g1 ++ rest) = some (g1, rest) := by
        rcases hkind with ⟨htlne, htld⟩ | ⟨sgn, eds, htl, hsgn, hedsne, hedsd⟩
        · rw [hg, List.cons_append]
          exact expTail_mk_nosign e he tl htlne htld rest hdig
        · rw [hg, htl, List.cons_append, List.cons_append]
          exact expTail_mk_sign e sgn he hsgn eds hedsne hedsd rest hdig
      simp only [floatTail, hfrac2, hexp2]
    | none =>
      simp only [hexp] at h
      simp only [Option.some.injEq, Prod.mk.injEq] at h
      obtain ⟨hf2, hr2⟩ := h
      subst hf2
      subst hr2
      have hfrac2 : fracTail (f1 ++ rest) = some (f1, rest) := by
        rw [hds, List.cons_append]
        exact fracTail_mk ds hne hdsd rest hdig
      simp only [floatTail, hfrac2, hexpnone]
  | none =>
    simp only [hft] at h
    obtain ⟨e, tl, hg, he, _, _, hkind⟩ := expTail_split s f r h
    have hfracnone : fracTail (f ++ rest) = none := by
      rw [hg, List.cons_append, fracTail,
        if_neg (by rcases he with rfl | rfl <;> decide)]
    have hexp2 : expTail (f ++ rest) = some (f, rest) := by
      rcases hkind with ⟨htlne, htld⟩ | ⟨sgn, eds, htl, hsgn, hedsne, hedsd⟩
      · rw [hg, List.cons_append]
        exact expTail_mk_nosign e he tl htlne htld rest hdig
      · rw [hg, htl, List.cons_append, List.cons_append]
        exact expTail_mk_sign e sgn he hsgn eds hedsne hedsd rest hdig
    simp only [floatTail, hfracnone, hexp2]

theorem digit_ascii (c : Char) (h : isDigitCh c = true) :
    0x20 ≤ c.toNat ∧ c.toNat ≤ 0x7e := by
  simp only [isDigitCh, Bool.and_eq_true, decide_eq_true_eq] at h
  omega

theorem floatTail_ascii (s f r : List Char) (h : floatTail s = some (f, r)) :
    ∀ x ∈ f, 0x20 ≤ x.toNat ∧ x.toNat ≤ 0x7e := by
  have hexpa : ∀ s2 g r2, expTail s2 = some (g, r2) →
      ∀ x ∈ g, 0x20 ≤ x.toNat ∧ x.toNat ≤ 0x7e := by
    intro s2 g r2 h2 x hx
    obtain ⟨e, tl, hg, he, _, _, hkind⟩ := expTail_split s2 g r2 h2
    rw [hg] at hx
    rcases List.mem_cons.mp hx with rfl | hx
    · rcases he with rfl | rfl <;> decide
    · rcases hkind with ⟨_, htld⟩ | ⟨sgn, eds, htl, hsgn, _, hedsd⟩
      · exact digit_ascii x (htld x hx)
      · rw [htl] at hx
        rcases List.mem_cons.mp hx with rfl | hx
        · rcases hsgn with rfl | rfl <;> decide
        · exact digit_ascii x (hedsd x hx)
  rw [floatTail] at h
  cases hft : fracTail s with
  | some p =>
    obtain ⟨f1, r1⟩ := p
    simp only [hft] at h
    obtain ⟨ds, hds, _, hdsd, _, _⟩ := fracTail_split s f1 r1 hft
    have hfa : ∀ x ∈ f1, 0x20 ≤ x.toNat ∧ x.toNat ≤ 0x7e := by
      intro x hx
      rw [hds] at hx
      rcases List.mem_cons.mp hx with rfl | hx
      · decide
      · exact digit_ascii x (hdsd x hx)
    cases hexp : expTail r1 with
    | some q =>
      obtain ⟨g1, r2⟩ := q
      simp only [hexp] at h
      simp only [Option.some.injEq, Prod.mk.injEq] at h
      obtain ⟨hf2, _⟩ := h
      intro x hx
      rw [← hf2] at hx
      rcases List.mem_append.mp hx with hx | hx
      · exact hfa x hx
      · exact hexpa r1 g1 r2 hexp x hx
    | none =>
      simp only [hexp] at h
      simp only [Option.some.injEq, Prod.mk.injEq] at h
      obtain ⟨hf2, _⟩ := h
      intro x hx
      rw [← hf2] at hx
      exact hfa x hx
  | none =>
    simp only [hft] at h
    exact hexpa s f r h

theorem parseIntLit_core (m : Nat) (rest : List Char) (hr : numStop rest = true)
    (sgn : Char) (s0 : List Char) :
    (match grabDigits (natDigits m ++ rest) with
      | ([], _) =>
        (match sgn, s0 with
          | '-', 'I' :: 'n' :: 'f' :: 'i' :: 'n' :: 'i' :: 't' :: 'y' :: r =>
            some (.jflt (("-Infinity").toList) (by decide), r)
          | _, _ => (none : Option (JVal × List Char)))
      | (d0 :: ds, rem) =>
        let q : List Char × List Char :=
          if d0 = '0' && ds ≠ [] then ([d0], ds ++ rem) else (d0 :: ds, rem)
        match floatTail q.2 with
        | some (ft, r2) =>
          let tok := (if sgn = '-' then ['-'] else []) ++ q.1 ++ ft
          if h : isFloatTok tok = true then some (.jflt tok h, r2) else none
        | none => some (.jnum ((if sgn = '-' then -1 else 1) * (digitsVal q.1 : Int)), q.2)) =
      some (.jnum ((if sgn = '-' then -1 else 1) * (m : Int)), rest) := by
  obtain ⟨d0, ds0, hnd, hd0⟩ := natDigits_head m
  have hgrab : grabDigits (natDigits m ++ rest) = (d0 :: ds0, rest) := by
    rw [grabDigits_digits_append _ _ (natDigits_digits m) (Or.inl hr), hnd]
  have hlz : (d0 = '0' && ds0 ≠ []) = false := by
    by_cases hz : d0 = '0'
    · subst hz
      have hm0 : m = 0 := natDigits_no_leading_zero m ds0 hnd
      subst hm0
      have h00 : natDigits 0 = ['0'] := by
        rw [natDigits]
        rfl
      rw [h00] at hnd
      simp only [List.cons.injEq] at hnd
      simp [hnd.2]
    · simp [hz]
  have hdv : digitsVal (d0 :: ds0) = m := by
    rw [← hnd, digitsVal_natDigits]
  rw [hgrab]
  simp only [hlz, Bool.false_eq_true, if_false, hdv, floatTail_numStop rest hr]

theorem parseIntLit_neg (m : Nat) (rest : List Char) (hr : numStop rest = true) :
    parseIntLit '-' (natDigits m ++ rest) = some (.jnum (-(m : Int)), rest) := by
  have hcore := parseIntLit_core m rest hr '-' (natDigits m ++ rest)
  have hgoal : parseIntLit '-' (natDigits m ++ rest) =
      some (.jnum ((if ('-' : Char) = '-' then -1 else 1) * (m : Int)), rest) := hcore
  rw [hgoal, if_pos rfl]
  simp

theorem parseIntLit_pos (m : Nat) (rest : List Char) (hr : numStop rest = true)
    (d0 : Char) (ds0 : List Char) (hnd : natDigits m = d0 :: ds0) :
    parseIntLit d0 (ds0 ++ rest) = some (.jnum ((m : Int)), rest) := by
  have hd0 : isDigitCh d0 = true := natDigits_digits m d0 (hnd ▸ List.mem_cons_self _ _)
  have hne : d0 ≠ '-' := digit_ne_ch _ _ hd0 (by decide)
  have hcore := parseIntLit_core m rest hr d0 (ds0 ++ rest)
  rw [parseIntLit.eq_def, if_neg hne]
  have harg : d0 :: (ds0 ++ rest) = natDigits m ++ rest := by
    rw [hnd, List.cons_append]
  rw [harg, hcore, if_neg hne]
  simp

theorem skipJWs_skipJWs (s : List Char) : skipJWs (skipJWs s) = skipJWs s := by
  induction s with
  | nil => rfl
  | cons c t ih =>
    by_cases h : isJWs c = true
    · simp [skipJWs, List.dropWhile_cons, h] at *
      exact ih
    · simp only [Bool.not_eq_true] at h
      simp [skipJWs, List.dropWhile_cons, h]

theorem parseVal_cons_ws (f : Nat) (c : Char) (s : List Char) (h : isJWs c = true) :
    parseVal f (c :: s) = parseVal f s := by
  cases f with
  | zero => rfl
  | succ f =>
    have hskip : skipJWs (c :: s) = skipJWs s := by
      simp [skipJWs, List.dropWhile_cons, h]
    rw [parseVal, parseVal, hskip]

theorem dumpInt_head (n : Int) :
    ∃ c t, dumpInt n = c :: t ∧ (c = '-' ∨ isDigitCh c = true) := by
  rw [dumpInt]
  split_ifs with h
  · exact ⟨'-', _, rfl, Or.inl rfl⟩
  · obtain ⟨d, ds, hnd, hd⟩ := natDigits_head n.toNat
    exact ⟨d, ds, hnd, Or.inr hd⟩


theorem parseVal_toIntLit (f : Nat) (c0 : Char) (t : List Char)
    (hws : isJWs c0 = false) (ha1 : c0 ≠ 'n') (ha2 : c0 ≠ 't') (ha3 : c0 ≠ 'f')
    (ha4 : c0 ≠ '"') (ha5 : c0 ≠ '[') (ha6 : c0 ≠ '\x7b')
    (ha7 : c0 ≠ 'N') (ha8 : c0 ≠ 'I')
    (hg : (c0 = '-' || isDigitCh c0) = true) :
    parseVal (f + 1) (c0 :: t) = parseIntLit c0 t := by
  rw [parseVal, skipJWs_cons_of _ _ hws]
  simp [ha1, ha2, ha3, ha4, ha5, ha6, ha7, ha8, hg]

theorem floatTail_splitEq (s f r : List Char) (h : floatTail s = some (f, r)) :
    s = f ++ r := by
  rw [floatTail] at h
  cases hft : fracTail s with
  | some p =>
    obtain ⟨f1, r1⟩ := p
    simp only [hft] at h
    obtain ⟨_, _, _, _, hs1, _⟩ := fracTail_split s f1 r1 hft
    cases hexp : expTail r1 with
    | some q =>
      obtain ⟨g1, r2⟩ := q
      simp only [hexp] at h
      simp only [Option.some.injEq, Prod.mk.injEq] at h
      obtain ⟨hf2, hr2⟩ := h
      obtain ⟨_, _, _, _, hs2, _, _⟩ := expTail_split r1 g1 r2 hexp
      rw [hs1, hs2, ← hf2, hr2]
      simp [List.append_assoc]
    | none =>
      simp only [hexp] at h
      simp only [Option.some.injEq, Prod.mk.injEq] at h
      obtain ⟨hf2, hr2⟩ := h
      rw [hs1, hf2, hr2]
  | none =>
    simp only [hft] at h
    obtain ⟨_, _, _, _, hs2, _, _⟩ := expTail_split s f r h
    exact hs2

theorem floatTail_self (s ft r2 : List Char) (h : floatTail s = some (ft, r2)) :
    floatTail ft = some (ft, []) := by
  have h2 := floatTail_reparse s ft r2 h [] (by intro c t he; simp at he)
  simpa using h2

/-- Every well-formed float token is a constant or has the number shape the
parser assembles: a sign guard, a maximal digit run without redundant
leading zeros, and a self-delimiting fraction/exponent tail. -/
theorem isFloatTok_cases (tok : List Char) (h : isFloatTok tok = true) :
    tok = ("NaN").toList ∨ tok = ("Infinity").toList ∨ tok = ("-Infinity").toList ∨
    ∃ c t d0 ds ft, tok = c :: t ∧ (c = '-' || isDigitCh c) = true ∧
      grabDigits (if c = '-' then t else c :: t) = (d0 :: ds, ft) ∧
      (d0 = '0' && ds ≠ []) = false ∧ floatTail ft = some (ft, []) := by
  rw [isFloatTok] at h
  simp only [Bool.or_eq_true, decide_eq_true_eq] at h
  rcases h with ((h3 | h3) | h3) | hnum
  · exact Or.inl h3
  · exact Or.inr (Or.inl h3)
  · exact Or.inr (Or.inr (Or.inl h3))
  · cases tok with
    | nil =>
      rw [isFloatTokNum] at hnum
      cases hnum
    | cons c t =>
      refine Or.inr (Or.inr (Or.inr ?_))
      rw [isFloatTokNum, Bool.and_eq_true] at hnum
      obtain ⟨hg, hrest⟩ := hnum
      cases hgr : grabDigits (if c = '-' then t else c :: t) with
      | mk gs rem =>
        simp only [hgr] at hrest
        cases gs with
        | nil => simp at hrest
        | cons d0 ds =>
          simp only at hrest
          rw [Bool.and_eq_true] at hrest
          obtain ⟨hlzb, hflb⟩ := hrest
          have hlz : (d0 = '0' && ds ≠ []) = false := by
            cases hb : (decide (d0 = '0') && decide (ds ≠ [])) with
            | false => rfl
            | true =>
              rw [hb] at hlzb
              simp at hlzb
          cases hfl : floatTail rem with
          | none =>
            simp only [hfl] at hflb
            simp at hflb
          | some p =>
            obtain ⟨ft, r2⟩ := p
            simp only [hfl] at hflb
            simp only [List.isEmpty_iff] at hflb
            subst hflb
            have hre : rem = ft := by
              have := floatTail_splitEq rem ft [] hfl
              simpa using this
            rw [hre] at hgr hfl
            exact ⟨c, t, d0, ds, ft, rfl, hg, hgr, hlz, hfl⟩

theorem isFloatTok_num (c d0 : Char) (ds ft : List Char)
    (hc : (c = '-' || isDigitCh c) = true)
    (hd : ∀ x ∈ d0 :: ds, isDigitCh x = true)
    (hlz : (d0 = '0' && ds ≠ []) = false)
    (hself : floatTail ft = some (ft, [])) :
    isFloatTok ((if c = '-' then ['-'] else []) ++ (d0 :: ds) ++ ft) = true := by
  obtain ⟨fc, ftl, hftc, hfcd, hfcm, _⟩ := floatTail_head ft ft [] hself
  have hbnd : numStop ft = true ∨ ft = [] ∨ isDigitCh ft.headI = false := by
    rw [hftc]
    exact Or.inr (Or.inr (by simpa using hfcd))
  have hgr : grabDigits ((d0 :: ds) ++ ft) = (d0 :: ds, ft) :=
    grabDigits_digits_append _ _ hd hbnd
  have hd0 : isDigitCh d0 = true := hd d0 (by simp)
  have hgr2 : grabDigits (d0 :: (ds ++ ft)) = (d0 :: ds, ft) := by
    rw [← List.cons_append]
    exact hgr
  have hlzp : ¬d0 = '0' ∨ ds = [] := by
    by_cases hz : d0 = '0'
    · subst hz
      right
      by_contra hne2
      simp [hne2] at hlz
    · exact Or.inl hz
  have hc2 : c = '-' ∨ isDigitCh c = true := by simpa using hc
  rcases hc2 with hcm | hcd
  · subst hcm
    have hnumtok : isFloatTokNum ('-' :: d0 :: (ds ++ ft)) = true := by
      rw [isFloatTokNum, if_pos rfl, hgr2]
      simp [hself]
      exact hlzp
    rw [if_pos rfl,
      show (['-'] : List Char) ++ (d0 :: ds) ++ ft = '-' :: d0 :: (ds ++ ft) from rfl,
      isFloatTok]
    simp [hnumtok]
  · have hnumtok : isFloatTokNum (d0 :: (ds ++ ft)) = true := by
      rw [isFloatTokNum, if_neg (digit_ne_ch d0 '-' hd0 (by decide)), hgr2]
      simp [hd0, hself]
      exact hlzp
    rw [if_neg (digit_ne_ch c '-' hcd (by decide)), List.nil_append, isFloatTok]
    simp [hnumtok]

/-- The well-formedness check `parseIntLit` performs on the float token it
has just assembled always succeeds: the guard exists only to carry the
proof into the constructor, so the parser accepts every float the scanner
accepts. -/
theorem parseIntLit_flt_built (c : Char) (s0 : List Char) (d0 : Char)
    (ds rem ft r2 : List Char)
    (hc : (c = '-' || isDigitCh c) = true)
    (hg : grabDigits (if c = '-' then s0 else c :: s0) = (d0 :: ds, rem))
    (hft : floatTail (if d0 = '0' && ds ≠ [] then ds ++ rem else rem) = some (ft, r2)) :
    isFloatTok ((if c = '-' then ['-'] else [])
      ++ (if d0 = '0' && ds ≠ [] then [d0] else d0 :: ds) ++ ft) = true := by
  obtain ⟨hsp1, hsp2, hsp3⟩ := grabDigits_eq (if c = '-' then s0 else c :: s0)
  rw [hg] at hsp1 hsp2 hsp3
  simp only at hsp1 hsp2 hsp3
  by_cases hlz : (d0 = '0' && ds ≠ []) = true
  · exfalso
    rw [if_pos hlz] at hft
    have hdsne : ds ≠ [] := by
      have h2 := hlz
      rw [Bool.and_eq_true] at h2
      simpa using h2.2
    obtain ⟨e, es, rfl⟩ : ∃ e es, ds = e :: es := by
      cases ds with
      | nil => exact absurd rfl hdsne
      | cons a b => exact ⟨a, b, rfl⟩
    have hed : isDigitCh e = true := hsp2 e (by simp)
    have hnone : floatTail ((e :: es) ++ rem) = none := by
      rw [List.cons_append, floatTail,
        show fracTail (e :: (es ++ rem)) = none from by
          rw [fracTail, if_neg (digit_ne_ch e '.' hed (by decide))],
        show expTail (e :: (es ++ rem)) = none from by
          rw [expTail, if_neg (by
            simp [digit_ne_ch e 'e' hed (by decide), digit_ne_ch e 'E' hed (by decide)])]]
    rw [hnone] at hft
    exact absurd hft (by simp)
  · have hlz2 : (d0 = '0' && ds ≠ []) = false := by simpa using hlz
    simp only [hlz2, Bool.false_eq_true, if_false] at hft ⊢
    exact isFloatTok_num c d0 ds ft hc hsp2 hlz2 (floatTail_self rem ft r2 hft)

theorem jflt_eq_of_tok (a b : List Char) (ha : isFloatTok a = true)
    (hb : isFloatTok b = true) (hab : a = b) : JVal.jflt a ha = JVal.jflt b hb := by
  subst hab
  rfl

theorem isFloatTok_head (tok : List Char) (h : isFloatTok tok = true) :
    ∃ c t, tok = c :: t ∧ isJWs c = false ∧ c ≠ ']' ∧ c ≠ '\x7d' := by
  rcases isFloatTok_cases tok h with h1 | h1 | h1
      | ⟨c, t, d0, ds, ft, htok, hg, hgrab, hlz, hself⟩
  · exact ⟨'N', _, h1, by decide, by decide, by decide⟩
  · exact ⟨'I', _, h1, by decide, by decide, by decide⟩
  · exact ⟨'-', _, h1, by decide, by decide, by decide⟩
  · have hc2 : c = '-' ∨ isDigitCh c = true := by simpa using hg
    refine ⟨c, t, htok, ?_, ?_, ?_⟩
    · rcases hc2 with hcm | hcm
      · rw [hcm]
        decide
      · exact digit_not_jws c hcm
    · rcases hc2 with hcm | hcm
      · rw [hcm]
        decide
      · exact digit_ne_ch c _ hcm (by decide)
    · rcases hc2 with hcm | hcm
      · rw [hcm]
        decide
      · exact digit_ne_ch c _ hcm (by decide)

theorem isFloatTok_ascii (tok : List Char) (h : isFloatTok tok = true) :
    ∀ x ∈ tok, 0x20 ≤ x.toNat ∧ x.toNat ≤ 0x7e := by
  rcases isFloatTok_cases tok h with h1 | h1 | h1
      | ⟨c, t, d0, ds, ft, htok, hg, hgrab, hlz, hself⟩
  · subst h1
    decide
  · subst h1
    decide
  · subst h1
    decide
  · subst htok
    obtain ⟨hsp1, hsp2, hsp3⟩ := grabDigits_eq (if c = '-' then t else c :: t)
    rw [hgrab] at hsp1 hsp2
    simp only at hsp1 hsp2
    have hfta := floatTail_ascii ft ft [] hself
    have hc2 : c = '-' ∨ isDigitCh c = true := by simpa using hg
    intro x hx
    rcases List.mem_cons.mp hx with rfl | hx2
    · rcases hc2 with hcm | hcm
      · rw [hcm]
        decide
      · exact digit_ascii x hcm
    · rcases hc2 with hcm | hcm
      · rw [if_pos hcm] at hsp1
        rw [← hsp1] at hx2
        rcases List.mem_append.mp hx2 with hx3 | hx3
        · exact digit_ascii x (hsp2 x hx3)
        · exact hfta x hx3
      · rw [if_neg (digit_ne_ch c '-' hcm (by decide)), List.cons_append] at hsp1
        have ht : t = ds ++ ft := by
          injection hsp1 with _ h2
          exact h2.symm
        rw [ht] at hx2
        rcases List.mem_append.mp hx2 with hx3 | hx3
        · exact digit_ascii x (hsp2 x (List.mem_cons_of_mem _ hx3))
        · exact hfta x hx3

theorem dumpVal_head (v : JVal) :
    ∃ c t, dumpVal v = c :: t ∧ isJWs c = false ∧ c ≠ ']' ∧ c ≠ '\x7d' := by
  cases v with
  | jnull => exact ⟨'n', _, by rw [dumpVal], by decide, by decide, by decide⟩
  | jbool b =>
    cases b with
    | true => exact ⟨'t', _, by rw [dumpVal], by decide, by decide, by decide⟩
    | false => exact ⟨'f', _, by rw [dumpVal], by decide, by decide, by decide⟩
  | jnum n =>
    obtain ⟨c, t, hct, hc⟩ := dumpInt_head n
    refine ⟨c, t, by rw [dumpVal, hct], ?_, ?_, ?_⟩
    · rcases hc with rfl | hc
      · decide
      · exact digit_not_jws c hc
    · rcases hc with rfl | hc
      · decide
      · exact digit_ne_ch c _ hc (by decide)
    · rcases hc with rfl | hc
      · decide
      · exact digit_ne_ch c _ hc (by decide)
  | jflt tok h2 =>
    obtain ⟨c, t, htok, p1, p2, p3⟩ := isFloatTok_head tok h2
    exact ⟨c, t, by rw [show dumpVal (.jflt tok h2) = tok from rfl, htok], p1, p2, p3⟩
  | jstr s => exact ⟨'"', _, by rw [dumpVal, dumpStr]; rfl, by decide, by decide, by decide⟩
  | jarr xs => exact ⟨'[', _, by rw [dumpVal]; rfl, by decide, by decide, by decide⟩
  | jobj kvs => exact ⟨'\x7b', _, by rw [dumpVal]; rfl, by decide, by decide, by decide⟩

theorem arrItems_head (x : JVal) (xs : List JVal) :
    ∃ c t, dumpArrItems (x :: xs) = c :: t ∧ isJWs c = false ∧ c ≠ ']' ∧ c ≠ '\x7d' := by
  obtain ⟨c, t, hct, h1, h2, h3⟩ := dumpVal_head x
  cases xs with
  | nil => exact ⟨c, t, by rw [dumpArrItems, hct], h1, h2, h3⟩
  | cons y ys =>
    refine ⟨c, t ++ ',' :: ' ' :: dumpArrItems (y :: ys), ?_, h1, h2, h3⟩
    rw [dumpArrItems, hct, List.cons_append]

theorem objItems_quote (k : List Char) (v : JVal) (kvs : List (List Char × JVal)) :
    ∃ t, dumpObjItems ((k, v) :: kvs) = '"' :: t := by
  cases kvs with
  | nil => exact ⟨_, by rw [dumpObjItems, dumpStr]; rfl⟩
  | cons m ms =>
    exact ⟨_, by rw [dumpObjItems, dumpStr]; rfl⟩

theorem skipJWs_dump (v : JVal) (x : List Char) :
    skipJWs (dumpVal v ++ x) = dumpVal v ++ x := by
  obtain ⟨c, t, hct, h1, _, _⟩ := dumpVal_head v
  rw [hct, List.cons_append, skipJWs_cons_of _ _ h1]

mutual

theorem dumpVal_ascii : ∀ v : JVal, ∀ x ∈ dumpVal v, 0x20 ≤ x.toNat ∧ x.toNat ≤ 0x7e
  | .jnull, x, hx => by
    simp only [dumpVal, List.mem_cons, List.not_mem_nil, or_false] at hx
    rcases hx with rfl | rfl | rfl | rfl <;> decide
  | .jbool true, x, hx => by
    simp only [dumpVal, List.mem_cons, List.not_mem_nil, or_false] at hx
    rcases hx with rfl | rfl | rfl | rfl <;> decide
  | .jbool false, x, hx => by
    simp only [dumpVal, List.mem_cons, List.not_mem_nil, or_false] at hx
    rcases hx with rfl | rfl | rfl | rfl | rfl <;> decide
  | .jnum n, x, hx => by
    simp only [dumpVal] at hx
    exact dumpInt_ascii n x hx
  | .jflt tok h2, x, hx => by
    simp only [dumpVal] at hx
    exact isFloatTok_ascii tok h2 x hx
  | .jstr s, x, hx => by
    simp only [dumpVal, dumpStr] at hx
    rcases List.mem_cons.mp hx with rfl | hx2
    · decide
    · rcases List.mem_append.mp hx2 with h | h
      · exact escapeStr_ascii s x h
      · simp only [List.mem_singleton] at h
        subst h
        decide
  | .jarr xs, x, hx => by
    simp only [dumpVal] at hx
    rcases List.mem_cons.mp hx with rfl | hx2
    · decide
    · rcases List.mem_append.mp hx2 with h | h
      · exact dumpArrItems_ascii xs x h
      · simp only [List.mem_singleton] at h
        subst h
        decide
  | .jobj kvs, x, hx => by
    simp only [dumpVal] at hx
    rcases List.mem_cons.mp hx with rfl | hx2
    · decide
    · rcases List.mem_append.mp hx2 with h | h
      · exact dumpObjItems_ascii kvs x h
      · simp only [List.mem_singleton] at h
        subst h
        decide
termination_by v => sizeOf v

theorem dumpArrItems_ascii : ∀ xs : List JVal, ∀ x ∈ dumpArrItems xs,
    0x20 ≤ x.toNat ∧ x.toNat ≤ 0x7e
  | [], x, hx => by simp [dumpArrItems] at hx
  | [v], x, hx => by
    rw [dumpArrItems] at hx
    exact dumpVal_ascii v x hx
  | v :: w :: xs, x, hx => by
    rw [dumpArrItems] at hx
    rcases List.mem_append.mp hx with h | h
    · exact dumpVal_ascii v x h
    · rcases List.mem_cons.mp h with rfl | h
      · decide
      · rcases List.mem_cons.mp h with rfl | h
        · decide
        · exact dumpArrItems_ascii (w :: xs) x h
termination_by xs => sizeOf xs

theorem dumpObjItems_ascii : ∀ kvs : List (List Char × JVal), ∀ x ∈ dumpObjItems kvs,
    0x20 ≤ x.toNat ∧ x.toNat ≤ 0x7e
  | [], x, hx => by simp [dumpObjItems] at hx
  | [(k, v)], x, hx => by
    rw [dumpObjItems] at hx
    rcases List.mem_append.mp hx with h | h
    · rw [dumpStr] at h
      rcases List.mem_cons.mp h with rfl | h
      · decide
      · rcases List.mem_append.mp h with h2 | h2
        · exact escapeStr_ascii k x h2
        · simp only [List.mem_singleton] at h2
          subst h2
          decide
    · rcases List.mem_cons.mp h with rfl | h
      · decide
      · rcases List.mem_cons.mp h with rfl | h
        · decide
        · exact dumpVal_ascii v x h
  | (k, v) :: m :: kvs, x, hx => by
    rw [dumpObjItems] at hx
    rcases List.mem_append.mp hx with h | h
    · rcases List.mem_append.mp h with h1 | h1
      · rw [dumpStr] at h1
        rcases List.mem_cons.mp h1 with rfl | h2
        · decide
        · rcases List.mem_append.mp h2 with h3 | h3
          · exact escapeStr_ascii k x h3
          · simp only [List.mem_singleton] at h3
            subst h3
            decide
      · rcases List.mem_cons.mp h1 with rfl | h2
        · decide
        · rcases List.mem_cons.mp h2 with rfl | h3
          · decide
          · exact dumpVal_ascii v x h3
    · rcases List.mem_cons.mp h with rfl | h1
      · decide
      · rcases List.mem_cons.mp h1 with rfl | h2
        · decide
        · exact dumpObjItems_ascii (m :: kvs) x h2
termination_by kvs => sizeOf kvs

end

theorem utf8ByteLen_ascii (s : List Char) (h : ∀ x ∈ s, 0x20 ≤ x.toNat ∧ x.toNat ≤ 0x7e) :
    utf8ByteLen s = s.length := by
  induction s with
  | nil => rfl
  | cons c cs ih =>
    have hc := h c (by simp)
    have hw : utf8Width c = 1 := by
      rw [utf8Width, if_pos (by omega)]
    simp only [utf8ByteLen, List.map_cons, List.sum_cons, List.length_cons] at *
    rw [hw, ih fun x hx => h x (by simp [hx])]
    omega

theorem utf8ByteLen_dumpVal (v : JVal) : utf8ByteLen (dumpVal v) = (dumpVal v).length :=
  utf8ByteLen_ascii _ (dumpVal_ascii v)

/-- A well-formed float token followed by a delimiter re-parses to exactly
itself — the `jflt` leg of the round trip. -/
theorem parseFlt (tok : List Char) (h : isFloatTok tok = true) (f : Nat)
    (rest : List Char) (hr : numStop rest = true) :
    parseVal (f + 1) (tok ++ rest) = some (.jflt tok h, rest) := by
  rcases isFloatTok_cases tok h with h1 | h1 | h1
      | ⟨c, t, d0, ds, ft, htok, hg, hgrab, hlz, hself⟩
  · subst h1
    rw [show ("NaN").toList ++ rest = 'N' :: 'a' :: 'N' :: rest from rfl,
      parseVal, skipJWs_cons_of _ _ (by decide)]
    rfl
  · subst h1
    rw [show ("Infinity").toList ++ rest
        = 'I' :: 'n' :: 'f' :: 'i' :: 'n' :: 'i' :: 't' :: 'y' :: rest from rfl,
      parseVal, skipJWs_cons_of _ _ (by decide)]
    rfl
  · subst h1
    rw [show ("-Infinity").toList ++ rest
        = '-' :: (("Infinity").toList ++ rest) from rfl,
      parseVal_toIntLit f '-' _ (by decide) (by decide) (by decide) (by decide)
        (by decide) (by decide) (by decide) (by decide) (by decide) (by decide)]
    rfl
  · subst htok
    obtain ⟨hsp1, hsp2, hsp3⟩ := grabDigits_eq (if c = '-' then t else c :: t)
    rw [hgrab] at hsp1 hsp2
    simp only at hsp1 hsp2
    obtain ⟨fc, ftl, hftc, hfcd, _, _⟩ := floatTail_head ft ft [] hself
    have hbnd : numStop (ft ++ rest) = true ∨ ft ++ rest = []
        ∨ isDigitCh (ft ++ rest).headI = false := by
      rw [hftc, List.cons_append]
      exact Or.inr (Or.inr (by simpa using hfcd))
    have hflt2 : floatTail (ft ++ rest) = some (ft, rest) :=
      floatTail_reparse ft ft [] hself rest (numStop_bound rest hr)
    have hcor : c = '-' ∨ isDigitCh c = true := by simpa using hg
    rcases hcor with hcm | hcm
    · subst hcm
      rw [if_pos rfl] at hsp1
      rw [List.cons_append,
        parseVal_toIntLit f '-' _ (by decide) (by decide) (by decide) (by decide)
          (by decide) (by decide) (by decide) (by decide) (by decide) (by simp),
        parseIntLit.eq_def, if_pos rfl,
        show t ++ rest = (d0 :: ds) ++ (ft ++ rest) from by
          rw [← hsp1, List.append_assoc],
        grabDigits_digits_append _ _ hsp2 hbnd]
      simp only [hlz, Bool.false_eq_true, if_false, hflt2, if_true]
      have htok2 : (['-'] : List Char) ++ (d0 :: ds) ++ ft = '-' :: t := by
        rw [← hsp1]
        rfl
      have hP : isFloatTok ((['-'] : List Char) ++ (d0 :: ds) ++ ft) = true := by
        rw [htok2]
        exact h
      rw [dif_pos hP]
      rw [jflt_eq_of_tok _ _ hP h htok2]
    · have hcd : isDigitCh c = true := hcm
      have hne : c ≠ '-' := digit_ne_ch c '-' hcd (by decide)
      rw [if_neg hne, List.cons_append] at hsp1
      have ht : t = ds ++ ft := by
        injection hsp1 with _ h2
        exact h2.symm
      have hd0c : d0 = c := by
        injection hsp1 with h1 _
      rw [List.cons_append,
        parseVal_toIntLit f c _ (digit_not_jws c hcd) (digit_ne_ch c _ hcd (by decide))
          (digit_ne_ch c _ hcd (by decide)) (digit_ne_ch c _ hcd (by decide))
          (digit_ne_ch c _ hcd (by decide)) (digit_ne_ch c _ hcd (by decide))
          (digit_ne_ch c _ hcd (by decide)) (digit_ne_ch c _ hcd (by decide))
          (digit_ne_ch c _ hcd (by decide)) (by simp [hcd]),
        parseIntLit.eq_def, if_neg hne,
        show c :: (t ++ rest) = (d0 :: ds) ++ (ft ++ rest) from by
          rw [ht, hd0c, List.cons_append, List.append_assoc],
        grabDigits_digits_append _ _ hsp2 hbnd]
      simp only [hlz, Bool.false_eq_true, if_false, hflt2]
      have htok2 : (if c = '-' then ['-'] else []) ++ (d0 :: ds) ++ ft = c :: t := by
        rw [if_neg hne, List.nil_append, ht, hd0c, List.cons_append]
      have hP : isFloatTok ((if c = '-' then ['-'] else []) ++ (d0 :: ds) ++ ft)
          = true := by
        rw [htok2]
        exact h
      rw [dif_pos hP]
      rw [jflt_eq_of_tok _ _ hP h htok2]

theorem parseVal_arrCons (x : JVal) (xs : List JVal) (f : Nat) (rest : List Char) :
    parseVal (f + 1) ('[' :: (dumpArrItems (x :: xs) ++ ']' :: rest)) =
      (parseArrMore f (dumpArrItems (x :: xs) ++ ']' :: rest)).map fun p =>
        (JVal.jarr p.1, p.2) := by
  obtain ⟨c, t, hct, h1, h2, _⟩ := arrItems_head x xs
  have hin : dumpArrItems (x :: xs) ++ ']' :: rest = c :: (t ++ ']' :: rest) := by
    rw [hct, List.cons_append]
  rw [hin, parseVal, skipJWs_cons_of _ _ (by decide)]
  have hsk : skipJWs (c :: (t ++ ']' :: rest)) = c :: (t ++ ']' :: rest) :=
    skipJWs_cons_of _ _ h1
  simp [hsk, h2]

theorem parseVal_objCons (k : List Char) (v : JVal) (kvs : List (List Char × JVal))
    (f : Nat) (rest : List Char) :
    parseVal (f + 1) ('\x7b' :: (dumpObjItems ((k, v) :: kvs) ++ '\x7d' :: rest)) =
      (parseObjMore f (dumpObjItems ((k, v) :: kvs) ++ '\x7d' :: rest)).map fun p =>
        (JVal.jobj p.1, p.2) := by
  obtain ⟨t, hct⟩ := objItems_quote k v kvs
  have hin : dumpObjItems ((k, v) :: kvs) ++ '\x7d' :: rest = '"' :: (t ++ '\x7d' :: rest) := by
    rw [hct, List.cons_append]
  rw [hin, parseVal, skipJWs_cons_of _ _ (by decide)]
  have hsk : skipJWs ('"' :: (t ++ '\x7d' :: rest)) = '"' :: (t ++ '\x7d' :: rest) :=
    skipJWs_cons_of _ _ (by decide)
  simp [hsk]

theorem escapeCh_len (c : Char) : 1 ≤ (escapeCh c).length := by
  rw [escapeCh]
  split_ifs <;> simp

theorem escapeStr_len (s : List Char) : s.length ≤ (escapeStr s).length := by
  induction s with
  | nil => simp [escapeStr]
  | cons c cs ih =>
    rw [escapeStr]
    have := escapeCh_len c
    simp only [List.length_cons, List.length_append]
    omega

theorem numStop_rsqb (t : List Char) : numStop (']' :: t) = true := rfl

theorem numStop_rcurly (t : List Char) : numStop ('\x7d' :: t) = true := rfl

theorem numStop_comma (t : List Char) : numStop (',' :: t) = true := rfl

mutual

theorem parse_dumpVal : ∀ (v : JVal) (fuel : Nat) (rest : List Char),
    (dumpVal v).length < fuel → numStop rest = true →
    parseVal fuel (dumpVal v ++ rest) = some (v, rest)
  | .jnull, fuel, rest, hf, _ => by
    cases fuel with
    | zero => exact absurd hf (Nat.not_lt_zero _)
    | succ f =>
      rw [dumpVal]
      simp only [List.cons_append, List.nil_append]
      rw [parseVal, skipJWs_cons_of _ _ (by decide)]
      rfl
  | .jbool true, fuel, rest, hf, _ => by
    cases fuel with
    | zero => exact absurd hf (Nat.not_lt_zero _)
    | succ f =>
      rw [dumpVal]
      simp only [List.cons_append, List.nil_append]
      rw [parseVal, skipJWs_cons_of _ _ (by decide)]
      rfl
  | .jbool false, fuel, rest, hf, _ => by
    cases fuel with
    | zero => exact absurd hf (Nat.not_lt_zero _)
    | succ f =>
      rw [dumpVal]
      simp only [List.cons_append, List.nil_append]
      rw [parseVal, skipJWs_cons_of _ _ (by decide)]
      rfl
  | .jnum n, fuel, rest, hf, hr => by
    cases fuel with
    | zero => exact absurd hf (Nat.not_lt_zero _)
    | succ f =>
      rw [dumpVal]
      by_cases hneg : n < 0
      · have hdi : dumpInt n = '-' :: natDigits (-n).toNat := by
          rw [dumpInt, if_pos hneg]
        rw [hdi, List.cons_append,
          parseVal_toIntLit f '-' _ (by decide) (by decide) (by decide) (by decide)
            (by decide) (by decide) (by decide) (by decide) (by decide) (by decide),
          parseIntLit_neg _ _ hr]
        have harith : -(((-n).toNat : Int)) = n := by omega
        rw [harith]
      · obtain ⟨d0, ds0, hnd, hd0⟩ := natDigits_head n.toNat
        have hdi : dumpInt n = natDigits n.toNat := by
          rw [dumpInt, if_neg hneg]
        rw [hdi, hnd, List.cons_append,
          parseVal_toIntLit f d0 _ (digit_not_jws _ hd0) (digit_ne_ch _ _ hd0 (by decide))
            (digit_ne_ch _ _ hd0 (by decide)) (digit_ne_ch _ _ hd0 (by decide))
            (digit_ne_ch _ _ hd0 (by decide)) (digit_ne_ch _ _ hd0 (by decide))
            (digit_ne_ch _ _ hd0 (by decide)) (digit_ne_ch _ _ hd0 (by decide))
            (digit_ne_ch _ _ hd0 (by decide)) (by simp [hd0]),
          parseIntLit_pos n.toNat rest hr d0 ds0 hnd]
        have harith : ((n.toNat : Int)) = n := Int.toNat_of_nonneg (by omega)
        rw [harith]
  | .jflt tok h2, fuel, rest, hf, hr => by
    cases fuel with
    | zero => exact absurd hf (Nat.not_lt_zero _)
    | succ f =>
      rw [show dumpVal (.jflt tok h2) = tok from rfl]
      exact parseFlt tok h2 f rest hr
  | .jstr s, fuel, rest, hf, _ => by
    cases fuel with
    | zero => exact absurd hf (Nat.not_lt_zero _)
    | succ f =>
      have harg : dumpVal (.jstr s) ++ rest = '"' :: (escapeStr s ++ '"' :: rest) := by
        rw [dumpVal, dumpStr]
        simp [List.cons_append, List.append_assoc]
      have hlen : s.length < f := by
        have h1 := escapeStr_len s
        have h2 : (dumpVal (.jstr s)).length = (escapeStr s).length + 2 := by
          rw [dumpVal, dumpStr]
          simp
        omega
      rw [harg, parseVal, skipJWs_cons_of _ _ (by decide)]
      simp [parseStrBody_escapeStr s f rest hlen]
  | .jarr [], fuel, rest, hf, _ => by
    cases fuel with
    | zero => exact absurd hf (Nat.not_lt_zero _)
    | succ f =>
      have harg : dumpVal (.jarr []) ++ rest = '[' :: ']' :: rest := by
        rw [dumpVal, dumpArrItems]
        rfl
      rw [harg, parseVal, skipJWs_cons_of _ _ (by decide)]
      have hsk : skipJWs (']' :: rest) = ']' :: rest := skipJWs_cons_of _ _ (by decide)
      simp [hsk]
  | .jarr (x :: xs), fuel, rest, hf, _ => by
    cases fuel with
    | zero => exact absurd hf (Nat.not_lt_zero _)
    | succ f =>
      have harg : dumpVal (.jarr (x :: xs)) ++ rest
          = '[' :: (dumpArrItems (x :: xs) ++ ']' :: rest) := by
        rw [dumpVal]
        simp [List.cons_append, List.append_assoc]
      have hflen : (dumpArrItems (x :: xs)).length + 1 < f := by
        have h2 : (dumpVal (.jarr (x :: xs))).length = (dumpArrItems (x :: xs)).length + 2 := by
          rw [dumpVal]
          simp
        omega
      rw [harg, parseVal_arrCons, parse_dumpArr x xs f rest hflen]
      rfl
  | .jobj [], fuel, rest, hf, _ => by
    cases fuel with
    | zero => exact absurd hf (Nat.not_lt_zero _)
    | succ f =>
      have harg : dumpVal (.jobj []) ++ rest = '\x7b' :: '\x7d' :: rest := by
        rw [dumpVal, dumpObjItems]
        rfl
      rw [harg, parseVal, skipJWs_cons_of _ _ (by decide)]
      have hsk : skipJWs ('\x7d' :: rest) = '\x7d' :: rest := skipJWs_cons_of _ _ (by decide)
      simp [hsk]
  | .jobj ((k, v) :: kvs), fuel, rest, hf, _ => by
    cases fuel with
    | zero => exact absurd hf (Nat.not_lt_zero _)
    | succ f =>
      have harg : dumpVal (.jobj ((k, v) :: kvs)) ++ rest
          = '\x7b' :: (dumpObjItems ((k, v) :: kvs) ++ '\x7d' :: rest) := by
        rw [dumpVal]
        simp [List.cons_append, List.append_assoc]
      have hflen : (dumpObjItems ((k, v) :: kvs)).length + 1 < f := by
        have h2 : (dumpVal (.jobj ((k, v) :: kvs))).length
            = (dumpObjItems ((k, v) :: kvs)).length + 2 := by
          rw [dumpVal]
          simp
        omega
      rw [harg, parseVal_objCons, parse_dumpObj k v kvs f rest hflen]
      rfl
termination_by v _ _ _ _ => sizeOf v

theorem parse_dumpArr : ∀ (x : JVal) (xs : List JVal) (f : Nat) (rest : List Char),
    (dumpArrItems (x :: xs)).length + 1 < f →
    parseArrMore f (dumpArrItems (x :: xs) ++ ']' :: rest) = some (x :: xs, rest)
  | x, [], f, rest, hf => by
    obtain ⟨f', rfl⟩ : ∃ f', f = f' + 1 := ⟨f - 1, by omega⟩
    have hone : dumpArrItems [x] = dumpVal x := by rw [dumpArrItems]
    have hlen : (dumpVal x).length < f' := by
      rw [hone] at hf
      omega
    rw [hone, parseArrMore, parse_dumpVal x f' (']' :: rest) hlen (numStop_rsqb rest)]
    have hsk : skipJWs (']' :: rest) = ']' :: rest := skipJWs_cons_of _ _ (by decide)
    simp [hsk]
  | x, y :: ys, f, rest, hf => by
    obtain ⟨f', rfl⟩ : ∃ f', f = f' + 1 := ⟨f - 1, by omega⟩
    have hlens : (dumpArrItems (x :: y :: ys)).length
        = (dumpVal x).length + 2 + (dumpArrItems (y :: ys)).length := by
      rw [dumpArrItems]
      simp
      omega
    have harg : dumpArrItems (x :: y :: ys) ++ ']' :: rest
        = dumpVal x ++ (',' :: ' ' :: (dumpArrItems (y :: ys) ++ ']' :: rest)) := by
      rw [dumpArrItems]
      simp [List.cons_append, List.append_assoc]
    have hlx : (dumpVal x).length < f' := by omega
    have hjy : (dumpArrItems (y :: ys)).length + 1 < f' := by omega
    obtain ⟨c, t, hct, h1, _, _⟩ := arrItems_head y ys
    have hsk1 : skipJWs (',' :: ' ' :: (dumpArrItems (y :: ys) ++ ']' :: rest))
        = ',' :: ' ' :: (dumpArrItems (y :: ys) ++ ']' :: rest) :=
      skipJWs_cons_of _ _ (by decide)
    have hsk2 : skipJWs (' ' :: (dumpArrItems (y :: ys) ++ ']' :: rest))
        = dumpArrItems (y :: ys) ++ ']' :: rest := by
      have hdrop : skipJWs (' ' :: (dumpArrItems (y :: ys) ++ ']' :: rest))
          = skipJWs (dumpArrItems (y :: ys) ++ ']' :: rest) := by
        simp [skipJWs, List.dropWhile_cons, isJWs]
      rw [hdrop, hct, List.cons_append, skipJWs_cons_of _ _ h1]
    rw [harg, parseArrMore, parse_dumpVal x f' _ hlx (numStop_comma _)]
    simp [hsk1, hsk2, parse_dumpArr y ys f' rest hjy]
termination_by x xs _ _ _ => sizeOf x + sizeOf xs

theorem parse_dumpObj : ∀ (k : List Char) (v : JVal) (kvs : List (List Char × JVal))
    (f : Nat) (rest : List Char),
    (dumpObjItems ((k, v) :: kvs)).length + 1 < f →
    parseObjMore f (dumpObjItems ((k, v) :: kvs) ++ '\x7d' :: rest) = some ((k, v) :: kvs, rest)
  | k, v, [], f, rest, hf => by
    obtain ⟨f', rfl⟩ : ∃ f', f = f' + 1 := ⟨f - 1, by omega⟩
    have hlens : (dumpObjItems [(k, v)]).length
        = (escapeStr k).length + 2 + (2 + (dumpVal v).length) := by
      rw [dumpObjItems, dumpStr]
      simp
      omega
    have harg : dumpObjItems [(k, v)] ++ '\x7d' :: rest
        = '"' :: (escapeStr k ++ '"' :: (':' :: ' ' :: (dumpVal v ++ '\x7d' :: rest))) := by
      rw [dumpObjItems, dumpStr]
      simp [List.cons_append, List.append_assoc]
    have hkl : k.length < f' := by
      have := escapeStr_len k
      omega
    have hvl : (dumpVal v).length < f' := by omega
    have hsk : skipJWs (':' :: ' ' :: (dumpVal v ++ '\x7d' :: rest))
        = ':' :: ' ' :: (dumpVal v ++ '\x7d' :: rest) := skipJWs_cons_of _ _ (by decide)
    have hskend : skipJWs ('\x7d' :: rest) = '\x7d' :: rest := skipJWs_cons_of _ _ (by decide)
    rw [harg, parseObjMore]
    simp only [parseStrBody_escapeStr k f' _ hkl, hsk,
      parseVal_cons_ws f' ' ' _ (by decide), parse_dumpVal v f' _ hvl (numStop_rcurly _), hskend]
  | k, v, (k2, v2) :: ms, f, rest, hf => by
    obtain ⟨f', rfl⟩ : ∃ f', f = f' + 1 := ⟨f - 1, by omega⟩
    have hlens : (dumpObjItems ((k, v) :: (k2, v2) :: ms)).length
        = (escapeStr k).length + 2 + (2 + (dumpVal v).length)
          + (2 + (dumpObjItems ((k2, v2) :: ms)).length) := by
      rw [dumpObjItems, dumpStr]
      simp
      omega
    have harg : dumpObjItems ((k, v) :: (k2, v2) :: ms) ++ '\x7d' :: rest
        = '"' :: (escapeStr k ++ '"' :: (':' :: ' ' :: (dumpVal v ++
            ',' :: ' ' :: (dumpObjItems ((k2, v2) :: ms) ++ '\x7d' :: rest)))) := by
      rw [dumpObjItems, dumpStr]
      simp [List.cons_append, List.append_assoc]
    have hkl : k.length < f' := by
      have := escapeStr_len k
      omega
    have hvl : (dumpVal v).length < f' := by omega
    have hrec : (dumpObjItems ((k2, v2) :: ms)).length + 1 < f' := by omega
    obtain ⟨t2, hq2⟩ := objItems_quote k2 v2 ms
    have hsk : skipJWs (':' :: ' ' :: (dumpVal v ++
          ',' :: ' ' :: (dumpObjItems ((k2, v2) :: ms) ++ '\x7d' :: rest)))
        = ':' :: ' ' :: (dumpVal v ++
          ',' :: ' ' :: (dumpObjItems ((k2, v2) :: ms) ++ '\x7d' :: rest)) :=
      skipJWs_cons_of _ _ (by decide)
    have hsk2 : skipJWs (',' :: ' ' :: (dumpObjItems ((k2, v2) :: ms) ++ '\x7d' :: rest))
        = ',' :: ' ' :: (dumpObjItems ((k2, v2) :: ms) ++ '\x7d' :: rest) :=
      skipJWs_cons_of _ _ (by decide)
    have hsk3 : skipJWs (' ' :: (dumpObjItems ((k2, v2) :: ms) ++ '\x7d' :: rest))
        = dumpObjItems ((k2, v2) :: ms) ++ '\x7d' :: rest := by
      have hdrop : skipJWs (' ' :: (dumpObjItems ((k2, v2) :: ms) ++ '\x7d' :: rest))
          = skipJWs (dumpObjItems ((k2, v2) :: ms) ++ '\x7d' :: rest) := by
        simp [skipJWs, List.dropWhile_cons, isJWs]
      rw [hdrop, hq2, List.cons_append, skipJWs_cons_of _ _ (by decide)]
    rw [harg, parseObjMore]
    simp only [parseStrBody_escapeStr k f' _ hkl, hsk,
      parseVal_cons_ws f' ' ' _ (by decide), parse_dumpVal v f' _ hvl (numStop_comma _), hsk2, hsk3,
      parse_dumpObj k2 v2 ms f' rest hrec]
    rfl
termination_by k v kvs _ _ _ => 1 + sizeOf v + sizeOf kvs

end

/-- The JSON codec round trip: `json.loads` inverts `json.dumps` on every
payload value. -/
theorem loads_dumpVal (v : JVal) : loads (dumpVal v) = some v := by
  have h := parse_dumpVal v ((dumpVal v).length + 1) [] (by omega) rfl
  rw [List.append_nil] at h
  rw [loads, h]
  rfl

theorem pyReadline_split : ∀ s : List Char, (pyReadline s).1 ++ (pyReadline s).2 = s := by
  intro s
  induction s with
  | nil => rfl
  | cons c cs ih =>
    rw [pyReadline]
    split_ifs with h
    · simp [h]
    · simpa using ih

theorem pyReadline_fst_ne (s : List Char) (h : s ≠ []) : (pyReadline s).1 ≠ [] := by
  cases s with
  | nil => exact absurd rfl h
  | cons c cs =>
    rw [pyReadline]
    split_ifs <;> simp

theorem pyReadline_append (a : List Char) (s : List Char) (h : '\n' ∉ a) :
    pyReadline (a ++ '\n' :: s) = (a ++ ['\n'], s) := by
  induction a with
  | nil => simp [pyReadline]
  | cons c t ih =>
    have hc : ¬(c = '\n') := fun he => h (he ▸ List.mem_cons_self _ _)
    have ht : '\n' ∉ t := fun hm => h (List.mem_cons_of_mem _ hm)
    rw [List.cons_append, pyReadline, if_neg hc, ih ht]
    simp

theorem listStarts_self_append : ∀ (p r : List Char), listStarts p (p ++ r) = true := by
  intro p
  induction p with
  | nil => intro r; rfl
  | cons c t ih =>
    intro r
    rw [List.cons_append, listStarts]
    simp [ih r]

theorem takeWhile_no_colon (X : List Char) (hX : ∀ c ∈ X, c ≠ ':') :
    X.takeWhile (fun c => c ≠ ':') = X := by
  induction X with
  | nil => rfl
  | cons c t ih =>
    rw [List.takeWhile_cons]
    rw [if_pos (by simp [hX c (by simp)])]
    rw [ih fun x hx => hX x (by simp [hx])]

theorem splitSecond_cl (X : List Char) (hX : ∀ c ∈ X, c ≠ ':') :
    splitSecond (clHead ++ X) = some (' ' :: X) := by
  have hshape : clHead ++ X = ("Content-Length").toList ++ ':' :: ' ' :: X := rfl
  rw [splitSecond, hshape]
  have hdrop : (("Content-Length").toList ++ ':' :: ' ' :: X).dropWhile (fun c => c ≠ ':')
      = ':' :: ' ' :: X := by
    simp [List.dropWhile]
  rw [hdrop]
  have htake : (' ' :: X).takeWhile (fun c => c ≠ ':') = ' ' :: X := by
    rw [List.takeWhile_cons, if_pos (by simp)]
    rw [takeWhile_no_colon X hX]
  exact congrArg some htake

theorem trimWs_digits (ds : List Char) (hne : ds ≠ []) (hd : ∀ c ∈ ds, isDigitCh c = true) :
    trimWs (' ' :: (ds ++ ['\r', '\n'])) = ds := by
  obtain ⟨d0, ds0, rfl⟩ : ∃ d0 ds0, ds = d0 :: ds0 := by
    cases ds with
    | nil => exact absurd rfl hne
    | cons a b => exact ⟨a, b, rfl⟩
  obtain ⟨e, es, hrev⟩ : ∃ e es, (d0 :: ds0).reverse = e :: es := by
    cases hr : (d0 :: ds0).reverse with
    | nil =>
      have := congrArg List.length hr
      simp at this
    | cons a b => exact ⟨a, b, rfl⟩
  have h0 : isPyWs d0 = false := digit_not_pyws _ (hd d0 (by simp))
  have he : isPyWs e = false := by
    refine digit_not_pyws _ (hd e ?_)
    have : e ∈ (d0 :: ds0).reverse := by
      rw [hrev]
      exact List.mem_cons_self _ _
    exact List.mem_reverse.mp this
  have s1 : List.dropWhile (fun c => isPyWs c) (' ' :: ((d0 :: ds0) ++ ['\r', '\n']))
      = (d0 :: ds0) ++ ['\r', '\n'] := by
    rw [List.dropWhile_cons, if_pos (by decide), List.cons_append, List.dropWhile_cons,
      if_neg (by simp [h0])]
  have s2 : ((d0 :: ds0) ++ ['\r', '\n']).reverse = '\n' :: '\r' :: (d0 :: ds0).reverse := by
    simp
  rw [trimWs, s1, s2, List.dropWhile_cons, if_pos (by decide), List.dropWhile_cons,
    if_pos (by decide), hrev, List.dropWhile_cons, if_neg (by simp [he]), ← hrev,
    List.reverse_reverse]

theorem pyInt_natDigits (m : Nat) : pyInt (natDigits m) = some (m : Int) := by
  obtain ⟨d0, ds0, hnd, hd0⟩ := natDigits_head m
  have h1 : d0 ≠ '-' := digit_ne_ch _ _ hd0 (by decide)
  have h2 : d0 ≠ '+' := digit_ne_ch _ _ hd0 (by decide)
  have hall : (d0 :: ds0).all isDigitCh = true := by
    rw [← hnd]
    exact List.all_eq_true.mpr (natDigits_digits m)
  have hdv : digitsVal (d0 :: ds0) = m := by
    rw [← hnd, digitsVal_natDigits]
  rw [hnd, pyInt]
  simp [h1, h2, hall, hdv]
  · intro ds1 hc
    injection hc with he _
    exact h1 he
  · intro ds1 hc
    injection hc with he _
    exact h2 he

theorem readLoopF_succ (f : Nat) (s : List Char) (h : (readLoopF f s).2 ≠ .outOfFuel) :
    readLoopF (f + 1) s = readLoopF f s := by
  induction f generalizing s with
  | zero => exact absurd rfl h
  | succ f ih =>
    rw [readLoopF] at h ⊢
    conv_rhs => rw [readLoopF]
    by_cases h1 : (pyReadline s).1 = []
    · simp only [h1, if_true]
    · simp only [h1, if_false]
      by_cases h2 : listStarts clPat (pyReadline s).1 = true
      · simp only [h2, if_true]
        simp only [h1, if_false, h2, if_true] at h
        cases h3 : splitSecond (pyReadline s).1 with
        | none => simp only [h3]
        | some seg =>
          simp only [h3]
          simp only [h3] at h
          cases h4 : pyInt (trimWs seg) with
          | none => simp only [h4]
          | some cl =>
            simp only [h4]
            simp only [h4] at h
            cases h5 : loads (pyRead cl (pyReadline (pyReadline s).2).2) with
            | none => simp only [h5]
            | some v =>
              simp only [h5]
              simp only [h5] at h
              cases h6 : classifyMsg v with
              | none => simp only [h6]
              | some c =>
                simp only [h6]
                simp only [h6] at h
                rw [ih _ h]
      · simp only [Bool.not_eq_true] at h2
        simp only [h2, Bool.false_eq_true, if_false]
        simp only [h1, if_false, h2, Bool.false_eq_true, if_false] at h
        exact ih _ h

theorem readLoopF_suff : ∀ (f : Nat) (s : List Char), s.length < f →
    (readLoopF f s).2 ≠ .outOfFuel := by
  intro f
  induction f with
  | zero =>
    intro s h
    exact absurd h (Nat.not_lt_zero _)
  | succ f ih =>
    intro s hs
    have hsplit := pyReadline_split s
    rw [readLoopF]
    by_cases h1 : (pyReadline s).1 = []
    · simp only [h1, if_true]
      simp
    · have hlt : (pyReadline s).2.length < s.length := by
        have hlen := congrArg List.length hsplit
        simp only [List.length_append] at hlen
        have : 1 ≤ (pyReadline s).1.length := by
          cases hp : (pyReadline s).1 with
          | nil => exact absurd hp h1
          | cons a b => simp
        omega
      simp only [h1, if_false]
      by_cases h2 : listStarts clPat (pyReadline s).1 = true
      · simp only [h2, if_true]
        cases h3 : splitSecond (pyReadline s).1 with
        | none => simp
        | some seg =>
          simp only []
          cases h4 : pyInt (trimWs seg) with
          | none => simp
          | some cl =>
            simp only []
            cases h5 : loads (pyRead cl (pyReadline (pyReadline s).2).2) with
            | none => simp
            | some v =>
              simp only []
              cases h6 : classifyMsg v with
              | none => simp
              | some c =>
                simp only []
                have hb : (pyReadline (pyReadline s).2).2.length ≤ (pyReadline s).2.length := by
                  have hs2 := congrArg List.length (pyReadline_split (pyReadline s).2)
                  simp only [List.length_append] at hs2
                  omega
                have hrest : (pyReadRest cl (pyReadline (pyReadline s).2).2).length < f := by
                  rw [pyReadRest]
                  split_ifs
                  · simp
                    omega
                  · simp only [List.length_drop]
                    omega
                exact ih _ hrest
      · simp only [Bool.not_eq_true] at h2
        simp only [h2, Bool.false_eq_true, if_false]
        exact ih _ (by omega)

theorem readLoopF_ge (f g : Nat) (s : List Char) (hfg : f ≤ g)
    (h : (readLoopF f s).2 ≠ .outOfFuel) : readLoopF g s = readLoopF f s := by
  induction g with
  | zero =>
    have : f = 0 := by omega
    subst this
    rfl
  | succ g ih =>
    by_cases hq : f = g + 1
    · subst hq
      rfl
    · have hle : f ≤ g := by omega
      rw [readLoopF_succ g s]
      · exact ih hle
      · rw [ih hle]
        exact h

theorem decodeStream_eq_readLoopF (s : List Char) (f : Nat) (h : s.length < f) :
    decodeStream s = readLoopF f s := by
  rw [decodeStream]
  rcases Nat.le_total f (s.length + 1) with hle | hle
  · exact readLoopF_ge f (s.length + 1) s hle (readLoopF_suff f s h)
  · exact (readLoopF_ge (s.length + 1) f s hle (readLoopF_suff (s.length + 1) s (by omega))).symm

theorem pyRead_exact (X : List Char) (L : Nat) (hL : L = X.length) :
    pyRead (L : Int) X = X := by
  rw [pyRead, if_neg (by simp), Int.toNat_natCast, hL, List.take_length]

theorem pyReadRest_exact (X : List Char) (L : Nat) (hL : L = X.length) :
    pyReadRest (L : Int) X = [] := by
  rw [pyReadRest, if_neg (by simp), Int.toNat_natCast, hL, List.drop_length]

theorem readLoopF_send (v : JVal) (f : Nat) (c : Classified) (hc : classifyMsg v = some c) :
    readLoopF (f + 3) (send v) = ([(v, c)], LoopEnd.eos) := by
  have h1 : pyReadline (send v)
      = (ctHeader, clHead ++ (natDigits (utf8ByteLen (dumpVal v)) ++
          ('\r' :: '\n' :: '\r' :: '\n' :: dumpVal v))) := by
    simp only [send]
    rw [show ctHeader = ("Content-Type: application/vscode-jsonrpc; charset=utf-8\r").toList
        ++ ['\n'] from rfl]
    simp only [List.append_assoc, List.singleton_append, List.cons_append]
    rw [pyReadline_append
      (("Content-Type: application/vscode-jsonrpc; charset=utf-8\r").toList) _ (by decide)]
    rfl
  have h2 : pyReadline (clHead ++ (natDigits (utf8ByteLen (dumpVal v)) ++
        ('\r' :: '\n' :: '\r' :: '\n' :: dumpVal v)))
      = (clHead ++ natDigits (utf8ByteLen (dumpVal v)) ++ ['\r', '\n'],
          '\r' :: '\n' :: dumpVal v) := by
    have hnl : '\n' ∉ clHead ++ natDigits (utf8ByteLen (dumpVal v)) ++ ['\r'] := by
      intro hm
      rcases List.mem_append.mp hm with hm | hm
      · rcases List.mem_append.mp hm with hm | hm
        · revert hm
          decide
        · exact absurd (natDigits_digits _ '\n' hm) (by decide)
      · simp at hm
    have hshape : clHead ++ (natDigits (utf8ByteLen (dumpVal v)) ++
          ('\r' :: '\n' :: '\r' :: '\n' :: dumpVal v))
        = (clHead ++ natDigits (utf8ByteLen (dumpVal v)) ++ ['\r'])
            ++ '\n' :: ('\r' :: '\n' :: dumpVal v) := by
      simp [List.append_assoc]
    rw [hshape, pyReadline_append _ _ hnl]
    simp [List.append_assoc]
  have hst2 : listStarts clPat (clHead ++ natDigits (utf8ByteLen (dumpVal v)) ++ ['\r', '\n'])
      = true := by
    rw [show clHead = clPat ++ [' '] from rfl, List.append_assoc, List.append_assoc]
    exact listStarts_self_append clPat _
  have hsplit2 : splitSecond (clHead ++ natDigits (utf8ByteLen (dumpVal v)) ++ ['\r', '\n'])
      = some (' ' :: (natDigits (utf8ByteLen (dumpVal v)) ++ ['\r', '\n'])) := by
    rw [List.append_assoc]
    refine splitSecond_cl _ ?_
    intro x hx
    rcases List.mem_append.mp hx with hx | hx
    · exact digit_ne_ch _ _ (natDigits_digits _ x hx) (by decide)
    · simp only [List.mem_cons, List.not_mem_nil, or_false] at hx
      rcases hx with rfl | rfl <;> decide
  have htrim : trimWs (' ' :: (natDigits (utf8ByteLen (dumpVal v)) ++ ['\r', '\n']))
      = natDigits (utf8ByteLen (dumpVal v)) :=
    trimWs_digits _ (natDigits_ne_nil _) (natDigits_digits _)
  have hafter : (pyReadline ('\r' :: '\n' :: dumpVal v)).2 = dumpVal v := by
    rw [show ('\r' :: '\n' :: dumpVal v) = ['\r'] ++ '\n' :: dumpVal v from rfl,
      pyReadline_append ['\r'] _ (by decide)]
  have step1 : readLoopF (f + 2 + 1) (send v)
      = readLoopF (f + 2) (clHead ++ (natDigits (utf8ByteLen (dumpVal v)) ++
          ('\r' :: '\n' :: '\r' :: '\n' :: dumpVal v))) := by
    rw [readLoopF]
    simp only [h1]
    rw [if_neg (by decide), if_neg (by decide)]
  have step2 : readLoopF (f + 1 + 1) (clHead ++ (natDigits (utf8ByteLen (dumpVal v)) ++
        ('\r' :: '\n' :: '\r' :: '\n' :: dumpVal v)))
      = ((v, c) :: (readLoopF (f + 1) []).1, (readLoopF (f + 1) []).2) := by
    rw [readLoopF]
    simp only [h2]
    rw [if_neg (by simp), if_pos hst2]
    simp only [hsplit2, htrim, pyInt_natDigits, hafter,
      pyRead_exact (dumpVal v) _ (utf8ByteLen_dumpVal v),
      pyReadRest_exact (dumpVal v) _ (utf8ByteLen_dumpVal v),
      loads_dumpVal v, hc]
  have step3 : readLoopF (f + 1) ([] : List Char) = ([], LoopEnd.eos) := by
    rw [readLoopF]
    simp [pyReadline]
  rw [show f + 3 = f + 2 + 1 from rfl, step1, show f + 2 = f + 1 + 1 from rfl, step2, step3]

theorem send_length (v : JVal) : 2 ≤ (send v).length := by
  rw [send]
  simp [List.length_append, ctHeader]

theorem decodeStream_send (v : JVal) (c : Classified) (hc : classifyMsg v = some c) :
    decodeStream (send v) = ([(v, c)], LoopEnd.eos) := by
  have hlen := send_length v
  obtain ⟨k, hk⟩ : ∃ k, (send v).length + 1 = k + 3 := ⟨(send v).length - 2, by omega⟩
  rw [decodeStream, hk, readLoopF_send v k c hc]

theorem pyReadlineB_append (a s : List Nat) (h : (10 : Nat) ∉ a) :
    pyReadlineB (a ++ 10 :: s) = (a ++ [10], s) := by
  induction a with
  | nil => simp [pyReadlineB]
  | cons c t ih =>
    have hc : ¬(c = 10) := fun he => h (he ▸ List.mem_cons_self _ _)
    have ht : (10 : Nat) ∉ t := fun hm => h (List.mem_cons_of_mem _ hm)
    rw [List.cons_append, pyReadlineB, if_neg hc, ih ht]
    simp

theorem pyReadlineB_split : ∀ s : List Nat, (pyReadlineB s).1 ++ (pyReadlineB s).2 = s := by
  intro s
  induction s with
  | nil => rfl
  | cons c cs ih =>
    rw [pyReadlineB]
    split_ifs with h
    · simp [h]
    · simpa using ih

theorem readLpB_succ (f : Nat) (s : List Nat) (h : (readLpB f s).2 ≠ .outOfFuel) :
    readLpB (f + 1) s = readLpB f s := by
  induction f generalizing s with
  | zero => exact absurd rfl h
  | succ f ih =>
    rw [readLpB] at h ⊢
    conv_rhs => rw [readLpB]
    by_cases h1 : (pyReadlineB s).1 = []
    · simp only [h1, if_true]
    · simp only [h1, if_false]
      simp only [h1, if_false] at h
      cases hd : utf8Decode (pyReadlineB s).1 with
      | none => simp only [hd]
      | some line =>
        simp only [hd]
        simp only [hd] at h
        by_cases h2 : listStarts clPat line = true
        · simp only [h2, if_true]
          simp only [h2, if_true] at h
          cases h3 : splitSecond line with
          | none => simp only [h3]
          | some seg =>
            simp only [h3]
            simp only [h3] at h
            cases h4 : pyInt (trimWs seg) with
            | none => simp only [h4]
            | some cl =>
              simp only [h4]
              simp only [h4] at h
              cases h5 : utf8Decode (pyReadB cl (pyReadlineB (pyReadlineB s).2).2) with
              | none => simp only [h5]
              | some body =>
                simp only [h5]
                simp only [h5] at h
                cases h6 : loads body with
                | none => simp only [h6]
                | some v =>
                  simp only [h6]
                  simp only [h6] at h
                  cases h7 : classifyMsg v with
                  | none => simp only [h7]
                  | some c =>
                    simp only [h7]
                    simp only [h7] at h
                    rw [ih _ h]
        · simp only [Bool.not_eq_true] at h2
          simp only [h2, Bool.false_eq_true, if_false]
          simp only [h2, Bool.false_eq_true, if_false] at h
          exact ih _ h

theorem readLpB_suff : ∀ (f : Nat) (s : List Nat), s.length < f →
    (readLpB f s).2 ≠ .outOfFuel := by
  intro f
  induction f with
  | zero =>
    intro s h
    exact absurd h (Nat.not_lt_zero _)
  | succ f ih =>
    intro s hs
    have hsplit := pyReadlineB_split s
    rw [readLpB]
    by_cases h1 : (pyReadlineB s).1 = []
    · simp only [h1, if_true]
      simp
    · have hlt : (pyReadlineB s).2.length < s.length := by
        have hlen := congrArg List.length hsplit
        simp only [List.length_append] at hlen
        have : 1 ≤ (pyReadlineB s).1.length := by
          cases hp : (pyReadlineB s).1 with
          | nil => exact absurd hp h1
          | cons a b => simp
        omega
      simp only [h1, if_false]
      cases hd : utf8Decode (pyReadlineB s).1 with
      | none => simp
      | some line =>
        simp only []
        by_cases h2 : listStarts clPat line = true
        · simp only [h2, if_true]
          cases h3 : splitSecond line with
          | none => simp
          | some seg =>
            simp only []
            cases h4 : pyInt (trimWs seg) with
            | none => simp
            | some cl =>
              simp only []
              cases h5 : utf8Decode (pyReadB cl (pyReadlineB (pyReadlineB s).2).2) with
              | none => simp
              | some body =>
                simp only []
                cases h6 : loads body with
                | none => simp
                | some v =>
                  simp only []
                  cases h7 : classifyMsg v with
                  | none => simp
                  | some c =>
                    simp only []
                    have hb : (pyReadlineB (pyReadlineB s).2).2.length
                        ≤ (pyReadlineB s).2.length := by
                      have hs2 := congrArg List.length (pyReadlineB_split (pyReadlineB s).2)
                      simp only [List.length_append] at hs2
                      omega
                    have hrest : (pyReadRestB cl (pyReadlineB (pyReadlineB s).2).2).length < f := by
                      rw [pyReadRestB]
                      split_ifs
                      · simp
                        omega
                      · simp only [List.length_drop]
                        omega
                    exact ih _ hrest
        · simp only [Bool.not_eq_true] at h2
          simp only [h2, Bool.false_eq_true, if_false]
          exact ih _ (by omega)

theorem readLpB_ge (f g : Nat) (s : List Nat) (hfg : f ≤ g)
    (h : (readLpB f s).2 ≠ .outOfFuel) : readLpB g s = readLpB f s := by
  induction g with
  | zero =>
    have : f = 0 := by omega
    subst this
    rfl
  | succ g ih =>
    by_cases hq : f = g + 1
    · subst hq
      rfl
    · have hle : f ≤ g := by omega
      rw [readLpB_succ g s]
      · exact ih hle
      · rw [ih hle]
        exact h

theorem decodeStrB_eq_readLpB (s : List Nat) (f : Nat) (h : s.length < f) :
    decodeStrB s = readLpB f s := by
  rw [decodeStrB]
  rcases Nat.le_total f (s.length + 1) with hle | hle
  · exact readLpB_ge f (s.length + 1) s hle (readLpB_suff f s h)
  · exact (readLpB_ge (s.length + 1) f s hle (readLpB_suff (s.length + 1) s (by omega))).symm

theorem payload_fields (m : Message) :
    payloadField (toPayload m) keyError = m.errorVal ∧
    payloadField (toPayload m) keyMethod = m.methodName.map JVal.jstr ∧
    payloadField (toPayload m) keyParams = m.paramsVal ∧
    payloadField (toPayload m) keyResult = m.resultVal ∧
    payloadField (toPayload m) keyId = m.idNum.map JVal.jnum := by
  obtain ⟨mid, mm, mp, mr, me⟩ := m
  cases mid <;> cases mm <;> cases mp <;> cases mr <;> cases me <;>
    simp [toPayload, payloadField, optField, objGet, keyJsonrpc, keyMethod, keyParams,
      keyResult, keyError, keyId]

theorem classifyMsg_obj (kvs : List (List Char × JVal)) :
    ∃ c, classifyMsg (.jobj kvs) = some c := by
  rw [classifyMsg]
  split_ifs with h
  · exact ⟨_, rfl⟩
  · cases hm : objGet kvs keyMethod with
    | none => exact ⟨_, rfl⟩
    | some mv => exact ⟨_, rfl⟩

/-- **C1** — Frame round trip: for every valid `Message` (version tag plus any
combination of identifier, method, and params/result/error), the bytes
`send` produces, fed to the read loop's header parse and exact-length body
read, reconstruct exactly that message as the single decoded payload, the
stream then ending cleanly; and the reconstructed payload carries the same
identifier, method, and params/result/error presence and values as the
message. -/
theorem c1_frame_round_trip (m : Message) :
    ∃ c, decodeStream (send (toPayload m)) = ([(toPayload m, c)], LoopEnd.eos) ∧
      payloadField (toPayload m) keyId = m.idNum.map JVal.jnum ∧
      payloadField (toPayload m) keyMethod = m.methodName.map JVal.jstr ∧
      payloadField (toPayload m) keyParams = m.paramsVal ∧
      payloadField (toPayload m) keyResult = m.resultVal ∧
      payloadField (toPayload m) keyError = m.errorVal := by
  have hex : ∃ c, classifyMsg (toPayload m) = some c := by
    rw [toPayload]
    exact classifyMsg_obj _
  obtain ⟨c, hc⟩ := hex
  obtain ⟨h1, h2, h3, h4, h5⟩ := payload_fields m
  exact ⟨c, decodeStream_send _ c hc, h5, h2, h3, h4, h1⟩

/-- **C2, counterexample** — a frame declaring `Content-Length: 50` whose
stream ends after a 10-byte body is *not* always a reported framing error:
when the 10 truncated bytes happen to be valid JSON (here `{"id": 50}`),
the read loop silently accepts the truncated body, classifies it as a
response, and ends as a clean end-of-stream — no error is reported. -/
theorem c2_counterexample :
    ((asciiBytes (("\x7b\"id\": 50\x7d").toList)).length = 10 ∧
      decodeStrB (asciiBytes (("Content-Length: 50\r\n\r\n\x7b\"id\": 50\x7d").toList))
        = ([(JVal.jobj [(("id").toList, JVal.jnum 50)],
            Classified.resp (some (JVal.jnum 50)))], LoopEnd.eos)) :=
  ⟨rfl, rfl⟩

/-- **C2, amended** — when the declared `Content-Length: 50` exceeds the 10
body bytes available and the truncated bytes do *not* decode and parse as a
JSON document (they fail UTF-8 decoding, or decode to text `json.loads`
rejects), the read loop reports the failure and terminates at once (no
message produced, no hang — the loop is a terminating function of the
closed stream).  Truncated bytes that happen to decode to valid JSON are
instead accepted silently (see the counterexample). -/
theorem c2_amended (body : List Nat) (hlen : body.length = 10)
    (hbad : ∀ chars, utf8Decode body = some chars → loads chars = none) :
    decodeStrB (asciiBytes (("Content-Length: 50\r\n\r\n").toList) ++ body)
      = ([], LoopEnd.errored) := by
  have hshape : asciiBytes (("Content-Length: 50\r\n\r\n").toList) ++ body
      = asciiBytes (("Content-Length: 50\r").toList) ++ 10 :: (13 :: 10 :: body) := rfl
  have h1 : pyReadlineB (asciiBytes (("Content-Length: 50\r\n\r\n").toList) ++ body)
      = (asciiBytes (("Content-Length: 50\r\n").toList), 13 :: 10 :: body) := by
    rw [hshape, pyReadlineB_append _ _ (by decide)]
    rfl
  have h2 : pyReadlineB (13 :: 10 :: body) = ([13, 10], body) := by
    rw [show ((13 : Nat) :: 10 :: body) = [13] ++ 10 :: body from rfl,
      pyReadlineB_append _ _ (by decide)]
    rfl
  have hread : pyReadB (50 : Int) body = body := by
    rw [pyReadB, if_neg (by decide)]
    exact List.take_of_length_le (by omega)
  have hstep : ∀ f,
      readLpB (f + 1) (asciiBytes (("Content-Length: 50\r\n\r\n").toList) ++ body)
        = ([], LoopEnd.errored) := by
    intro f
    rw [readLpB]
    simp only [h1]
    rw [if_neg (by decide)]
    simp only [show utf8Decode (asciiBytes (("Content-Length: 50\r\n").toList))
        = some (("Content-Length: 50\r\n").toList) from rfl]
    rw [if_pos (by decide)]
    simp only [show splitSecond ((("Content-Length: 50\r\n").toList))
        = some ((" 50\r\n").toList) from rfl,
      show trimWs ((" 50\r\n").toList) = ("50").toList from rfl,
      show pyInt (("50").toList) = some (50 : Int) from rfl, h2, hread]
    cases hdb : utf8Decode body with
    | none => simp only [hdb]
    | some chars => simp only [hdb, hbad chars hdb]
  obtain ⟨k, hk⟩ :
      ∃ k, (asciiBytes (("Content-Length: 50\r\n\r\n").toList) ++ body).length + 1 = k + 1 :=
    ⟨_, rfl⟩
  rw [decodeStrB, hk, hstep k]

/-- Witness for the C2 amendment at a concrete input: ten bytes that decode
to text that is not a JSON document. -/
theorem c2_amended_witness :
    (asciiBytes (("abcdefghij").toList)).length = 10 ∧
    decodeStrB (asciiBytes (("Content-Length: 50\r\n\r\n").toList)
        ++ asciiBytes (("abcdefghij").toList))
      = ([], LoopEnd.errored) :=
  ⟨rfl, c2_amended (asciiBytes (("abcdefghij").toList)) rfl (fun chars hc => by
    rw [show utf8Decode (asciiBytes (("abcdefghij").toList))
        = some (("abcdefghij").toList) from rfl] at hc
    injection hc with hc2
    rw [← hc2]
    rfl)⟩

/-- **C3, counterexample** — the classifier does not behave as claimed: a
payload with *none* of error, method, or identifier is classified as a
plain response (identifier `None`), not surfaced as malformed; and a
payload carrying *both* a method and an identifier is classified as a
notification, although the claim reserves Notification for method-without-
identifier payloads. -/
theorem c3_counterexample :
    classifyMsg (JVal.jobj []) = some (Classified.resp none) ∧
    classifyMsg (JVal.jobj [(("method").toList, JVal.jstr (("m").toList)),
        (("id").toList, JVal.jnum 7)])
      = some (Classified.notif (JVal.jstr (("m").toList))) :=
  ⟨rfl, rfl⟩

/-- **C3, amended** — the classification actually implemented is a cascade
on the decoded object: ErrorReply exactly when an `error` key is present;
otherwise Notification exactly when a `method` key is present (regardless
of any identifier); otherwise Response, carrying the value of the `id` key
if any (`none` when the object has no identifier — never a malformed-message
condition). -/
theorem c3_amended (kvs : List (List Char × JVal)) :
    ∃ c, classifyMsg (.jobj kvs) = some c ∧
      ((∃ v, c = Classified.errReply v) ↔ (objGet kvs keyError).isSome = true) ∧
      ((∃ v, c = Classified.notif v) ↔
        ((objGet kvs keyError).isSome = false ∧ (objGet kvs keyMethod).isSome = true)) ∧
      ((∃ i, c = Classified.resp i) ↔
        ((objGet kvs keyError).isSome = false ∧ (objGet kvs keyMethod).isSome = false)) ∧
      (∀ i, c = Classified.resp i → i = objGet kvs keyId) := by
  rw [classifyMsg]
  by_cases he : (objGet kvs keyError).isSome = true
  · refine ⟨Classified.errReply (.jobj kvs), by rw [if_pos he], ?_, ?_, ?_, ?_⟩
    · simp [he]
    · simp [he]
    · simp [he]
    · intro i h
      exact absurd h (by simp)
  · have heb : (objGet kvs keyError).isSome = false := by
      simpa using he
    rw [if_neg he]
    cases hm : objGet kvs keyMethod with
    | none =>
      refine ⟨Classified.resp (objGet kvs keyId), rfl, ?_, ?_, ?_, ?_⟩
      · simp [heb]
      · simp [hm]
      · simp [heb, hm]
      · intro i h
        injection h with h
        exact h.symm
    | some mv =>
      refine ⟨Classified.notif mv, rfl, ?_, ?_, ?_, ?_⟩
      · simp [heb]
      · simp [heb, hm]
      · simp [hm]
      · intro i h
        exact absurd h (by simp)

/-- Witness for the C3 amendment at a concrete object carrying only a
`result` field: it is classified as a response with no identifier. -/
theorem c3_amended_witness :
    ∃ c, classifyMsg (.jobj [(("result").toList, JVal.jnull)]) = some c ∧
      ((∃ v, c = Classified.errReply v) ↔
        (objGet [(("result").toList, JVal.jnull)] keyError).isSome = true) ∧
      ((∃ v, c = Classified.notif v) ↔
        ((objGet [(("result").toList, JVal.jnull)] keyError).isSome = false ∧
          (objGet [(("result").toList, JVal.jnull)] keyMethod).isSome = true)) ∧
      ((∃ i, c = Classified.resp i) ↔
        ((objGet [(("result").toList, JVal.jnull)] keyError).isSome = false ∧
          (objGet [(("result").toList, JVal.jnull)] keyMethod).isSome = false)) ∧
      (∀ i, c = Classified.resp i → i = objGet [(("result").toList, JVal.jnull)] keyId) :=
  c3_amended [(("result").toList, JVal.jnull)]

/-- **C4, counterexample** — an unrecognized header is *not* skipped
harmlessly everywhere in the header block: placed after the
`Content-Length` line, it is consumed by the read that expects the blank
separator line, the body read then starts at the wrong offset, and the
decode errors out — whereas the same frame without the extra header decodes
to its single message cleanly.  And a header line whose bytes are not valid
UTF-8 (here the single byte 255) is not skipped either, anywhere: its
decode raises, ending the loop in error with no message. -/
theorem c4_counterexample :
    decodeStrB (asciiBytes (("Content-Length: 2\r\nX-Custom: a\r\n\r\n\x7b\x7d").toList))
      = ([], LoopEnd.errored) ∧
    decodeStrB (asciiBytes (("Content-Length: 2\r\n\r\n\x7b\x7d").toList))
      = ([(JVal.jobj [], Classified.resp none)], LoopEnd.eos) ∧
    decodeStrB (([255, 10] : List Nat)
        ++ asciiBytes (("Content-Length: 2\r\n\r\n\x7b\x7d").toList))
      = ([], LoopEnd.errored) :=
  ⟨rfl, rfl, rfl⟩

/-- **C4, amended** — an extra header line is skipped without any effect on
the decode exactly when it precedes the `Content-Length` line and its bytes
decode as UTF-8: any newline-terminated byte line that decodes to text not
beginning with `Content-Length:` is discarded, and the rest of the stream
decodes identically.  (A line that fails UTF-8 decoding instead ends the
loop in error — see the counterexample.) -/
theorem c4_amended (lb : List Nat) (h1 : (10 : Nat) ∉ lb) (line : List Char)
    (hdec : utf8Decode (lb ++ [10]) = some line)
    (h2 : listStarts clPat line = false) (sb : List Nat) :
    decodeStrB ((lb ++ [10]) ++ sb) = decodeStrB sb := by
  have hline : pyReadlineB ((lb ++ [10]) ++ sb) = (lb ++ [10], sb) := by
    rw [List.append_assoc, List.singleton_append, pyReadlineB_append _ _ h1]
  have hne : lb ++ [10] ≠ [] := by simp
  have hstep : ∀ f, readLpB (f + 1) ((lb ++ [10]) ++ sb) = readLpB f sb := by
    intro f
    rw [readLpB]
    simp only [hline]
    rw [if_neg hne]
    simp only [hdec]
    rw [if_neg (by simp [h2])]
  have hlen : ((lb ++ [10]) ++ sb).length = lb.length + 1 + sb.length := by
    simp
    omega
  rw [decodeStrB, hlen,
    show lb.length + 1 + sb.length + 1 = (lb.length + sb.length + 1) + 1 from by omega,
    hstep]
  exact (decodeStrB_eq_readLpB sb (lb.length + sb.length + 1) (by omega)).symm

/-- Witness for the C4 amendment at a concrete extra header placed before
the `Content-Length` line. -/
theorem c4_amended_witness :
    decodeStrB ((asciiBytes (("X-Custom: a\r").toList) ++ [10])
        ++ asciiBytes (("Content-Length: 2\r\n\r\n\x7b\x7d").toList))
      = decodeStrB (asciiBytes (("Content-Length: 2\r\n\r\n\x7b\x7d").toList)) :=
  c4_amended (asciiBytes (("X-Custom: a\r").toList)) (by decide)
    (("X-Custom: a\r\n").toList) rfl (by decide)
    (asciiBytes (("Content-Length: 2\r\n\r\n\x7b\x7d").toList))

/-- **C5** — the six payloads of the session carry identifiers
`1, none, none, 2, 3, 4` in order: requests get `1, 2, 3, 4`, fresh,
starting at 1, incrementing by 1, strictly increasing and hence never
reused; the two notifications carry no identifier. -/
theorem c5_request_ids (txt : List Char) :
    (scriptMessages txt).map payloadIdNum
      = [some 1, none, none, some 2, some 3, some 4] ∧
    (scriptMessages txt).filterMap payloadIdNum = [1, 2, 3, 4] ∧
    ((scriptMessages txt).filterMap payloadIdNum).Pairwise (fun a b => a < b) := by
  refine ⟨rfl, rfl, ?_⟩
  rw [show (scriptMessages txt).filterMap payloadIdNum = [(1 : Int), 2, 3, 4] from rfl]
  decide

theorem filterMap_sentOf_map_sent (L : List JVal) :
    (L.map RunEff.sent).filterMap sentOf = L := by
  induction L with
  | nil => rfl
  | cons a t ih => simp [sentOf, ih]

theorem filterMap_sentOf_map_classified (L : List (JVal × Classified)) :
    (L.map fun p => RunEff.classified p.1 p.2).filterMap sentOf = [] := by
  induction L with
  | nil => rfl
  | cons a t ih => simp [sentOf, ih]

/-- **C6** — regardless of what the child writes back (`stdout` is
universally quantified, so no send ever waits on a reply), the session
sends exactly the six payloads in order: `initialize` (empty params,
id 1), `initialized` (empty params, no id), `textDocument/didOpen`
(carrying the synthetic URI, language id `mml`, version 1, and the full
file text; no id), `textDocument/semanticTokens/full` (id 2),
`textDocument/documentSymbol` (id 3), and `textDocument/definition` at
line 130, character 6 (id 4). -/
theorem c6_script (txt stdout : List Char) :
    (runEffects (some txt) stdout).filterMap sentOf = scriptMessages txt ∧
    (scriptMessages txt).map (fun v => payloadField v keyMethod)
      = [some (.jstr (("initialize").toList)),
         some (.jstr (("initialized").toList)),
         some (.jstr (("textDocument/didOpen").toList)),
         some (.jstr (("textDocument/semanticTokens/full").toList)),
         some (.jstr (("textDocument/documentSymbol").toList)),
         some (.jstr (("textDocument/definition").toList))] ∧
    (scriptMessages txt).map payloadIdNum
      = [some 1, none, none, some 2, some 3, some 4] ∧
    payloadField msgInitialize keyParams = some (.jobj []) ∧
    payloadField msgInitialized keyParams = some (.jobj []) ∧
    payloadField (msgDidOpen txt) keyParams
      = some (.jobj [(("textDocument").toList, .jobj
          [(("uri").toList, theUri),
           (("languageId").toList, .jstr (("mml").toList)),
           (("version").toList, .jnum 1),
           (("text").toList, .jstr txt)])]) ∧
    payloadField msgDefinition keyParams
      = some (.jobj
          [(("textDocument").toList, .jobj [(("uri").toList, theUri)]),
           (("position").toList, .jobj
             [(("line").toList, .jnum 130), (("character").toList, .jnum 6)])]) := by
  refine ⟨?_, rfl, rfl, rfl, rfl, rfl, rfl⟩
  have h3 : List.filterMap sentOf
      (match (decodeStream stdout).2 with
       | LoopEnd.errored => [RunEff.errorReport]
       | _ => []) = [] := by
    cases (decodeStream stdout).2 <;> rfl
  simp only [runEffects, List.filterMap_append, filterMap_sentOf_map_sent,
    filterMap_sentOf_map_classified, h3]
  simp [sentOf]

theorem readerBody_no_fail (name : List Char) :
    ∀ es : List ErrRead, ∀ d ∈ (readerBody name es).1, d.isFail = false := by
  intro es
  induction es with
  | nil => simp [readerBody]
  | cons h t ih =>
    cases h with
    | fail e => simp [readerBody]
    | line bs =>
      by_cases hb : bs = []
      · simp [readerBody, hb]
      · rw [readerBody, if_neg hb]
        cases hu : utf8Decode bs with
        | none => simp
        | some s =>
          intro d hd
          rcases List.mem_cons.mp hd with rfl | hd
          · rfl
          · exact ih d hd

/-- **C7** — the stderr drain is a total function of the error stream's
behavior (so no exception crosses the thread boundary): for every stream
behavior, every printed line except possibly the final one is an ordinary
diagnostic line, and at most one drain-failure line is ever printed —
exactly one when the body escaped with an exception, in last position,
after which the drain ends. -/
theorem c7_drain (name : List Char) (es : List ErrRead) :
    (∀ d ∈ (reader name es).dropLast, d.isFail = false) ∧
    (reader name es).countP DrainEntry.isFail ≤ 1 ∧
    (∀ e, (readerBody name es).2 = some e →
      reader name es = (readerBody name es).1 ++ [DrainEntry.drainFail name e]) := by
  have hbody := readerBody_no_fail name es
  cases hrb : readerBody name es with
  | mk out x =>
    rw [hrb] at hbody
    simp only at hbody
    cases x with
    | none =>
      have hr : reader name es = out := by rw [reader, hrb]
      rw [hr]
      refine ⟨fun d hd => hbody d ((List.dropLast_prefix out).subset hd), ?_, ?_⟩
      · have h0 : out.countP DrainEntry.isFail = 0 :=
          List.countP_eq_zero.mpr (by simpa using hbody)
        omega
      · intro e he
        exact absurd he (by simp)
    | some e0 =>
      have hr : reader name es = out ++ [DrainEntry.drainFail name e0] := by
        rw [reader, hrb]
      rw [hr]
      refine ⟨?_, ?_, ?_⟩
      · intro d hd
        rw [List.dropLast_concat] at hd
        exact hbody d hd
      · rw [List.countP_append]
        have h0 : out.countP DrainEntry.isFail = 0 :=
          List.countP_eq_zero.mpr (by simpa using hbody)
        simp [h0, DrainEntry.isFail]
      · intro e he
        simp only at he
        injection he with he
        subst he
        rfl

/-- **C8** — on every execution path (file read failed, stream decoded
cleanly, decode errored, fuel-style divergence guard), the very last
effect of the session is asking the child to terminate; and termination is
idempotent and total (always lands in `exited`, raising nothing when the
process already exited). -/
theorem c8_cleanup :
    (∀ ft so, (runEffects ft so).getLast? = some RunEff.terminate) ∧
    (∀ p, terminateProc (terminateProc p) = terminateProc p) ∧
    terminateProc ProcState.exited = ProcState.exited := by
  refine ⟨?_, fun p => rfl, rfl⟩
  intro ft so
  cases ft <;> exact List.getLast?_concat _

end MmlTool

namespace MmlBench

/-- **C9** — `factorial n` returns `n!` for every integer `n ≥ 0` (in
particular `factorial 0 = 1`), and returns `1` for every integer `n ≤ 1`,
negatives included. -/
theorem c9_factorial (n : Int) :
    (0 ≤ n → factorial n = (n.toNat.factorial : Int)) ∧
    (n ≤ 1 → factorial n = 1) := by
  have key : ∀ k : Nat, ∀ m : Int, m.toNat = k → 0 ≤ m →
      factorial m = (m.toNat.factorial : Int) := by
    intro k
    induction k with
    | zero =>
      intro m h0 hm
      rw [factorial, if_pos (by omega : m ≤ 1), h0]
      rfl
    | succ k ih =>
      intro m h0 hm
      by_cases h1 : m ≤ 1
      · have hm1 : m.toNat = 1 := by omega
        rw [factorial, if_pos h1, hm1]
        rfl
      · rw [factorial, if_neg h1, ih (m - 1) (by omega) (by omega)]
        have h2 : m.toNat = (m - 1).toNat + 1 := by omega
        rw [h2, Nat.factorial_succ]
        push_cast
        have h3 : ((m - 1).toNat : Int) = m - 1 := by omega
        rw [h3]
        ring
  exact ⟨fun hn => key n.toNat n rfl hn, fun h1 => by rw [factorial]; exact if_pos h1⟩

/-- Witness for C9 at the concrete inputs 4 and -5. -/
theorem c9_factorial_witness : factorial 4 = 24 ∧ factorial (-5) = 1 := by
  constructor
  · have h14 : factorial 4 = (((4 : Int).toNat.factorial : Nat) : Int) :=
      (c9_factorial 4).1 (by decide)
    rw [h14]
    decide
  · exact (c9_factorial (-5)).2 (by decide)


theorem getD_set_self (l : List Nat) (i a : Nat) (h : i < l.length) :
    (l.set i a).getD i 0 = a := by
  simp [List.getD_eq_getElem?_getD, List.getElem?_set_self, h]

theorem getD_set_ne (l : List Nat) (i j a : Nat) (h : i ≠ j) :
    (l.set i a).getD j 0 = l.getD j 0 := by
  simp [List.getD_eq_getElem?_getD, List.getElem?_set_ne h]

theorem getD_replicate (n j : Nat) : (List.replicate n (0 : Nat)).getD j 0 = 0 := by
  simp [List.getD_eq_getElem?_getD, List.getElem?_replicate]
  split <;> rfl

/-- `init_sieve` keeps the length and sets every cell from `i` on to 1. -/
theorem init_sieve_spec (size : Nat) :
    ∀ k i arr, size - i = k → arr.length = size →
      (init_sieve arr i size).length = size ∧
      ∀ j, (init_sieve arr i size).getD j 0
        = if i ≤ j ∧ j < size then 1 else arr.getD j 0 := by
  intro k
  induction k with
  | zero =>
    intro i arr hk hlen
    rw [init_sieve, if_neg (by omega)]
    exact ⟨hlen, fun j => (if_neg (by omega)).symm⟩
  | succ k ih =>
    intro i arr hk hlen
    have hi : i < size := by omega
    rw [init_sieve, if_pos hi]
    obtain ⟨ihlen, ihget⟩ := ih (i + 1) (arr.set i 1) (by omega) (by simpa using hlen)
    refine ⟨ihlen, fun j => ?_⟩
    rw [ihget j]
    by_cases hij : i + 1 ≤ j ∧ j < size
    · rw [if_pos hij, if_pos (by omega)]
    · rw [if_neg hij]
      by_cases hj2 : i ≤ j ∧ j < size
      · have hji : j = i := by omega
        subst hji
        rw [if_pos hj2, getD_set_self _ _ _ (by omega)]
      · rw [if_neg hj2, getD_set_ne _ _ _ _ (by omega)]

/-- One Newton step from any positive guess stays at or above the integer
square root. -/
theorem newton_ge_sqrt (n g : Nat) (hg : 1 ≤ g) :
    Nat.sqrt n ≤ (g + n / g) / 2 := by
  set s := Nat.sqrt n with hs
  rw [Nat.le_div_iff_mul_le (by omega)]
  rcases le_or_lt g (2 * s) with hsg | hsg
  · have h1 : (2 * s - g) * g ≤ s * s := by
      zify [hsg]
      nlinarith [sq_nonneg ((s : Int) - g)]
    have h2 : s * s ≤ n := Nat.sqrt_le n
    have h3 : 2 * s - g ≤ n / g := (Nat.le_div_iff_mul_le (by omega)).mpr (le_trans h1 h2)
    omega
  · calc s * 2 ≤ g := by omega
      _ ≤ g + n / g := Nat.le_add_right _ _

/-- `isqrt` computes the integer square root from any guess at or above it,
as long as the root is positive (the loop keeps the guess positive, so the
division never hits zero). -/
theorem isqrt_eq_sqrt (n : Nat) :
    ∀ g, Nat.sqrt n ≤ g → 1 ≤ Nat.sqrt n → isqrt n g = Nat.sqrt n := by
  intro g
  induction g using Nat.strong_induction_on with
  | _ g ih =>
    intro hg h1
    have hgpos : 1 ≤ g := le_trans h1 hg
    rw [isqrt]
    by_cases hnext : (g + n / g) / 2 ≥ g
    · rw [dif_pos hnext]
      have hdiv : g ≤ n / g := by
        have := (Nat.le_div_iff_mul_le (show 0 < 2 by omega)).mp hnext
        omega
      have hgg : g * g ≤ n := (Nat.le_div_iff_mul_le (show 0 < g by omega)).mp hdiv
      have hle : g ≤ Nat.sqrt n := Nat.le_sqrt.mpr hgg
      omega
    · rw [dif_neg hnext]
      exact ih _ (by omega) (newton_ge_sqrt n g hgpos) h1

/-- For `limit ≥ 2` the initial guess `limit / 2` is at or above the root. -/
theorem sqrt_le_half (limit : Nat) (h : 2 ≤ limit) : Nat.sqrt limit ≤ limit / 2 := by
  have hh : 1 ≤ limit / 2 := by omega
  have hlim : limit ≤ 2 * (limit / 2) + 1 := by omega
  have h1 : limit < (limit / 2 + 1) * (limit / 2 + 1) := by nlinarith
  have := Nat.sqrt_lt.mpr h1
  omega

/-- The call `isqrt(limit, limit // 2)` the sieve makes returns
`Nat.sqrt limit` whenever `limit ≥ 2`. -/
theorem isqrt_call (limit : Nat) (h : 2 ≤ limit) :
    isqrt limit (limit / 2) = Nat.sqrt limit :=
  isqrt_eq_sqrt limit (limit / 2) (sqrt_le_half limit h) (Nat.le_sqrt.mpr (by omega))

/-- `clear_multiples` with enough fuel zeroes exactly the cells
`num, num + factor, …` below `size`, preserving the rest. -/
theorem clear_multiples_spec :
    ∀ fuel arr factor num size, 1 ≤ factor → size ≤ num + fuel → arr.length = size →
      (clear_multiples fuel arr factor num size).length = size ∧
      ∀ j, (clear_multiples fuel arr factor num size).getD j 0
        = if num ≤ j ∧ j < size ∧ factor ∣ (j - num) then 0
          else arr.getD j 0 := by
  intro fuel
  induction fuel with
  | zero =>
    intro arr factor num size hf hc hlen
    rw [clear_multiples]
    exact ⟨hlen, fun j => (if_neg (by rintro ⟨a, b, _⟩; omega)).symm⟩
  | succ fuel ih =>
    intro arr factor num size hf hc hlen
    rw [clear_multiples]
    by_cases hn : num < size
    · rw [if_pos hn]
      obtain ⟨ihlen, ihget⟩ :=
        ih (arr.set num 0) factor (num + factor) size hf (by omega) (by simpa using hlen)
      refine ⟨ihlen, fun j => ?_⟩
      rw [ihget j]
      by_cases hcase : num + factor ≤ j ∧ j < size ∧ factor ∣ (j - (num + factor))
      · rw [if_pos hcase]
        obtain ⟨hc1, hc2, hdvd⟩ := hcase
        refine (if_pos ⟨by omega, hc2, ?_⟩).symm
        have heq : j - num = (j - (num + factor)) + factor := by omega
        rw [heq]
        exact Nat.dvd_add hdvd (dvd_refl _)
      · rw [if_neg hcase]
        by_cases hj : j = num
        · subst hj
          rw [if_pos ⟨le_refl _, hn, by simp⟩, getD_set_self _ _ _ (by omega)]
        · rw [getD_set_ne _ _ _ _ (fun h => hj h.symm)]
          refine (if_neg ?_).symm
          rintro ⟨h1, h2, hdvd⟩
          have hpos : 0 < j - num := by omega
          have hfle : factor ≤ j - num := Nat.le_of_dvd hpos hdvd
          refine hcase ⟨by omega, h2, ?_⟩
          have heq : j - (num + factor) = (j - num) - factor := by omega
          rw [heq]
          exact Nat.dvd_sub' hdvd (dvd_refl _)
    · rw [if_neg hn]
      exact ⟨hlen, fun j => (if_neg (by rintro ⟨a, b, _⟩; omega)).symm⟩

/-- `find_next_prime` returns 0 when no cell in `[i, limit]` holds 1, and
otherwise the first index in that range holding 1. -/
theorem find_next_prime_spec (arr : List Nat) :
    ∀ d i limit, limit + 1 - i = d →
      (find_next_prime arr i limit = 0 ∧
        ∀ j, i ≤ j → j ≤ limit → arr.getD j 0 ≠ 1) ∨
      (i ≤ find_next_prime arr i limit ∧ find_next_prime arr i limit ≤ limit ∧
        arr.getD (find_next_prime arr i limit) 0 = 1 ∧
        ∀ j, i ≤ j → j < find_next_prime arr i limit → arr.getD j 0 ≠ 1) := by
  intro d
  induction d with
  | zero =>
    intro i limit hd
    left
    rw [find_next_prime, if_neg (by omega)]
    exact ⟨rfl, fun j hj1 hj2 => absurd hj2 (by omega)⟩
  | succ d ih =>
    intro i limit hd
    have hi : i ≤ limit := by omega
    rw [find_next_prime, if_pos hi]
    by_cases h1 : arr.getD i 0 = 1
    · rw [if_pos h1]
      right
      exact ⟨le_refl i, hi, h1, fun j hj1 hj2 => absurd hj2 (by omega)⟩
    · rw [if_neg h1]
      have hrec := ih (i + 1) limit (by omega)
      rcases hrec with ⟨hz, hall⟩ | ⟨ha, hb, hcell, hfirst⟩
      · refine Or.inl ⟨hz, fun j hj1 hj2 => ?_⟩
        rcases hj1.eq_or_lt with rfl | hj3
        · exact h1
        · exact hall j (by omega) hj2
      · refine Or.inr ⟨by omega, hb, hcell, fun j hj1 hj2 => ?_⟩
        rcases hj1.eq_or_lt with rfl | hj3
        · exact h1
        · exact hfirst j (by omega) hj2

/-- The counting loop adds to `count` the number of set cells in
`[i, size)`. -/
theorem count_loop_spec (arr : List Nat) (size : Nat) :
    ∀ d count i, size - i = d →
      count_loop arr count i size
        = count + ((Finset.Ico i size).filter (fun j => arr.getD j 0 = 1)).card := by
  intro d
  induction d with
  | zero =>
    intro count i hd
    rw [count_loop, if_neg (by omega), Finset.Ico_eq_empty (by omega),
      Finset.filter_empty, Finset.card_empty]
    omega
  | succ d ih =>
    intro count i hd
    have hi : i < size := by omega
    rw [count_loop, if_pos hi, ih _ (i + 1) (by omega)]
    by_cases h1 : arr.getD i 0 = 1
    · rw [if_pos h1, ← Nat.Ico_insert_succ_left hi, Finset.filter_insert, if_pos h1,
        Finset.card_insert_of_not_mem (by simp)]
      simp only [Nat.succ_eq_add_one]
      omega
    · rw [if_neg h1, ← Nat.Ico_insert_succ_left hi, Finset.filter_insert, if_neg h1]

/-- `count_primes` is one (for the prime 2) plus the number of set cells. -/
theorem count_primes_spec (arr : List Nat) (size : Nat) :
    count_primes arr size
      = 1 + ((Finset.range size).filter (fun j => arr.getD j 0 = 1)).card := by
  rw [count_primes, count_loop_spec arr size (size - 0) 1 0 rfl, Finset.range_eq_Ico]


/-- Every odd composite at least 3 has an odd prime factor whose square
does not exceed it. -/
theorem odd_prime_factor (m : Nat) (hm : m % 2 = 1) (h3 : 3 ≤ m) (hnp : ¬m.Prime) :
    ∃ p, p.Prime ∧ p % 2 = 1 ∧ p * p ≤ m ∧ p ∣ m ∧ p < m := by
  have hpp : m.minFac.Prime := Nat.minFac_prime (by omega)
  have hsq : m.minFac * m.minFac ≤ m := by
    have h := Nat.minFac_sq_le_self (show 0 < m by omega) hnp
    rwa [pow_two] at h
  have hdvd : m.minFac ∣ m := Nat.minFac_dvd m
  have hodd : m.minFac % 2 = 1 := by
    rcases hpp.eq_two_or_odd with h | h
    · exfalso
      have h2 : 2 ∣ m := h ▸ hdvd
      omega
    · exact h
  refine ⟨m.minFac, hpp, hodd, hsq, hdvd, ?_⟩
  have h2 := hpp.two_le
  by_contra hlt
  push_neg at hlt
  have : m ≤ m.minFac := hlt
  nlinarith

theorem sieve_loop_succ_stop (fuel : Nat) (arr : List Nat) (f q size : Nat)
    (h : ¬f ≤ q) : sieve_loop (fuel + 1) arr f q size = arr := by
  rw [sieve_loop, if_neg h]

theorem sieve_loop_succ_none (fuel : Nat) (arr : List Nat) (f q size : Nat)
    (h : f ≤ q) (h0 : find_next_prime arr (f / 2) (q / 2) = 0) :
    sieve_loop (fuel + 1) arr f q size = arr := by
  rw [sieve_loop, if_pos h]
  simp [h0]

theorem sieve_loop_succ_step (fuel : Nat) (arr : List Nat) (f q size np : Nat)
    (h : f ≤ q) (h0 : find_next_prime arr (f / 2) (q / 2) = np) (hnz : np ≠ 0) :
    sieve_loop (fuel + 1) arr f q size
      = sieve_loop fuel
          (clear_multiples size arr (np * 2 + 1) ((np * 2 + 1) * (np * 2 + 1) / 2) size)
          (np * 2 + 1 + 2) q size := by
  rw [sieve_loop, if_pos h]
  simp [h0, hnz]

/-- The factor loop preserves the sieve invariant, never runs out of fuel
under the guard `q + 1 ≤ factor + fuel`, and exits either past `q` or with
no surviving cell left in the scan window. -/
theorem sieve_loop_inv (size q : Nat) (hqsize : q / 2 < size) :
    ∀ fuel f arr, 3 ≤ f → f % 2 = 1 → q + 1 ≤ f + fuel →
      sieveInv size f arr →
      ∃ g, sieveInv size g (sieve_loop fuel arr f q size) ∧ f ≤ g ∧ g % 2 = 1 ∧ 3 ≤ g ∧
        (q < g ∨ ∀ j, g / 2 ≤ j → j ≤ q / 2 →
          (sieve_loop fuel arr f q size).getD j 0 ≠ 1) := by
  intro fuel
  induction fuel with
  | zero =>
    intro f arr hf hfodd hguard hinv
    rw [sieve_loop]
    exact ⟨f, hinv, le_refl f, hfodd, hf, Or.inl (by omega)⟩
  | succ fuel ih =>
    intro f arr hf hfodd hguard hinv
    by_cases hq : f ≤ q
    · have hspec := find_next_prime_spec arr (q / 2 + 1 - f / 2) (f / 2) (q / 2) rfl
      by_cases h0 : find_next_prime arr (f / 2) (q / 2) = 0
      · rw [sieve_loop_succ_none fuel arr f q size hq h0]
        rcases hspec with ⟨_, hall⟩ | ⟨ha, _, _, _⟩
        · exact ⟨f, hinv, le_refl f, hfodd, hf, Or.inr hall⟩
        · rw [h0] at ha
          omega
      · rcases hspec with ⟨hz, _⟩ | ⟨ha, hb, hcell, hfirst⟩
        · exact absurd hz h0
        rw [sieve_loop_succ_step fuel arr f q size _ hq rfl h0]
        set np := find_next_prime arr (f / 2) (q / 2) with hnp
        set af := np * 2 + 1 with haf
        have hnp1 : 1 ≤ np := by omega
        have hnpsize : np < size := by omega
        have haff : f ≤ af := by omega
        have hafodd : af % 2 = 1 := by omega
        have haf3 : 3 ≤ af := by omega
        have hnc : ¬cleared f np := (hinv.2.2 np (by omega) hnpsize).2.mp hcell
        have h2np : 2 * np + 1 = af := by omega
        have hafprime : af.Prime := by
          by_contra hnp2
          obtain ⟨p, hpp, hpodd, hpsq, hpdvd, hplt⟩ :=
            odd_prime_factor af hafodd haf3 hnp2
          have hp2 := hpp.two_le
          have hp3 : 3 ≤ p := by omega
          by_cases hpf : p < f
          · exact hnc ⟨p, hpp, hpodd, hpf, by omega, by rw [h2np]; exact hpdvd⟩
          · push_neg at hpf
            have hjplt : p / 2 < np := by omega
            have hskip : arr.getD (p / 2) 0 ≠ 1 := hfirst (p / 2) (by omega) hjplt
            have hjpsize : p / 2 < size := by omega
            have hcl : cleared f (p / 2) := by
              by_contra hncl
              exact hskip ((hinv.2.2 (p / 2) (by omega) hjpsize).2.mpr hncl)
            obtain ⟨r, hrp, hrodd, hrf, hrsq, hrdvd⟩ := hcl
            have hpodd2 : 2 * (p / 2) + 1 = p := by omega
            rw [hpodd2] at hrdvd
            rcases Nat.Prime.eq_one_or_self_of_dvd hpp r hrdvd with rfl | rfl
            · exact absurd hrp Nat.not_prime_one
            · omega
        have hnogap : ∀ r, r.Prime → r % 2 = 1 → f ≤ r → r < af → False := by
          intro r hrp hrodd hrf hrlt
          have hr2 := hrp.two_le
          have hr3 : 3 ≤ r := by omega
          have hjlt : r / 2 < np := by omega
          have hjsize : r / 2 < size := by omega
          have hskip : arr.getD (r / 2) 0 ≠ 1 := hfirst (r / 2) (by omega) hjlt
          have hcl : cleared f (r / 2) := by
            by_contra hncl
            exact hskip ((hinv.2.2 (r / 2) (by omega) hjsize).2.mpr hncl)
          obtain ⟨t, htp, htodd, htf, htsq, htdvd⟩ := hcl
          have hrodd2 : 2 * (r / 2) + 1 = r := by omega
          rw [hrodd2] at htdvd
          rcases Nat.Prime.eq_one_or_self_of_dvd hrp t htdvd with rfl | rfl
          · exact absurd htp Nat.not_prime_one
          · omega
        set start := af * af / 2 with hstart
        have hsq_odd : (af * af) % 2 = 1 := by
          rw [Nat.mul_mod, hafodd]
        have h2start : 2 * start + 1 = af * af := by omega
        have haf9 : 9 ≤ af * af := by nlinarith
        obtain ⟨hclen, hcget⟩ :=
          clear_multiples_spec size arr af start size (by omega) (by omega) hinv.1
        have hkey : ∀ j, (start ≤ j ∧ af ∣ (j - start))
            ↔ (af * af ≤ 2 * j + 1 ∧ af ∣ (2 * j + 1)) := by
          intro j
          constructor
          · rintro ⟨hsj, k, hk⟩
            have heq : 2 * j + 1 = 2 * (af * k) + af * af := by omega
            refine ⟨by omega, ?_⟩
            rw [heq]
            exact Nat.dvd_add ((dvd_mul_right af k).mul_left 2) (dvd_mul_right af af)
          · rintro ⟨hsq, t, ht⟩
            have htodd : t % 2 = 1 := by
              have hmod : (af * t) % 2 = af % 2 * (t % 2) % 2 := Nat.mul_mod af t 2
              rw [hafodd, one_mul] at hmod
              omega
            have htaf : af ≤ t := by
              have := Nat.le_of_mul_le_mul_left (ht ▸ hsq) (show 0 < af by omega)
              omega
            have hteven : (t - af) % 2 = 0 := by omega
            have ht2 : t = af + 2 * ((t - af) / 2) := by omega
            have hexp : af * t = af * af + 2 * (af * ((t - af) / 2)) := by
              nth_rewrite 1 [ht2]
              ring
            refine ⟨by omega, (t - af) / 2, by omega⟩
        have hclev : ∀ j, cleared (af + 2) j
            ↔ cleared f j ∨ (af * af ≤ 2 * j + 1 ∧ af ∣ (2 * j + 1)) := by
          intro j
          constructor
          · rintro ⟨p, hpp, hpodd, hplt, hpsq, hpdvd⟩
            by_cases hpf : p < f
            · exact Or.inl ⟨p, hpp, hpodd, hpf, hpsq, hpdvd⟩
            · push_neg at hpf
              have hpaf : p ≤ af := by omega
              rcases eq_or_lt_of_le hpaf with rfl | hplt2
              · exact Or.inr ⟨hpsq, hpdvd⟩
              · exact absurd (hnogap p hpp hpodd hpf hplt2) (fun h => h)
          · rintro (⟨p, hpp, hpodd, hplt, hpsq, hpdvd⟩ | ⟨hsq, hdvd⟩)
            · exact ⟨p, hpp, hpodd, by omega, hpsq, hpdvd⟩
            · exact ⟨af, hafprime, hafodd, by omega, hsq, hdvd⟩
        have hinv2 : sieveInv size (af + 2)
            (clear_multiples size arr af start size) := by
          refine ⟨hclen, ?_, ?_⟩
          · rw [hcget 0, if_neg (by rintro ⟨hc1, _, _⟩; omega)]
            exact hinv.2.1
          · intro j hj1 hjsize
            rw [hcget j]
            by_cases hc : start ≤ j ∧ j < size ∧ af ∣ (j - start)
            · rw [if_pos hc]
              refine ⟨Or.inr rfl, ?_, ?_⟩
              · intro h01
                exact absurd h01 (by omega)
              · intro hncl
                exact absurd ((hclev j).mpr (Or.inr ((hkey j).mp ⟨hc.1, hc.2.2⟩))) hncl
            · rw [if_neg hc]
              obtain ⟨hv, hiff⟩ := hinv.2.2 j hj1 hjsize
              have hD : ¬(af * af ≤ 2 * j + 1 ∧ af ∣ (2 * j + 1)) := fun hD2 =>
                hc ⟨((hkey j).mpr hD2).1, hjsize, ((hkey j).mpr hD2).2⟩
              refine ⟨hv, ?_⟩
              rw [hiff, hclev j]
              constructor
              · rintro hnotf (hcf | hDf)
                · exact hnotf hcf
                · exact hD hDf
              · intro hnot hcf
                exact hnot (Or.inl hcf)
            -- note: goal order above must match ⟨values, iff⟩ shape
        obtain ⟨g, hg1, hg2, hg3, hg4, hg5⟩ :=
          ih (af + 2) (clear_multiples size arr af start size)
            (by omega) (by omega) (by omega) hinv2
        exact ⟨g, hg1, by omega, hg3, hg4, hg5⟩
    · rw [sieve_loop_succ_stop fuel arr f q size hq]
      exact ⟨f, hinv, le_refl f, hfodd, hf, Or.inl (by omega)⟩


/-- The freshly initialised array (all cells 1, then cell 0 forced to 0)
satisfies the invariant at the first factor, 3. -/
theorem initial_inv (limit : Nat) (h2 : 2 ≤ limit) :
    sieveInv ((limit + 1) / 2) 3
      ((init_sieve (List.replicate ((limit + 1) / 2) 0) 0 ((limit + 1) / 2)).set 0 0) := by
  obtain ⟨hlen, hget⟩ :=
    init_sieve_spec ((limit + 1) / 2) ((limit + 1) / 2) 0
      (List.replicate ((limit + 1) / 2) 0) (by omega) (by simp)
  refine ⟨by simpa using hlen, ?_, ?_⟩
  · exact getD_set_self _ 0 0 (by rw [hlen]; omega)
  · intro j hj1 hjsize
    rw [getD_set_ne _ _ _ _ (by omega), hget j, if_pos ⟨Nat.zero_le j, hjsize⟩]
    refine ⟨Or.inl rfl, ?_, ?_⟩
    · rintro _ ⟨p, hpp, hpodd, hplt, hpsq, hpdvd⟩
      have := hpp.two_le
      omega
    · intro _
      rfl

/-- **C10** — for every `limit ≥ 2`, `run_sieve limit` terminates (it is a
total function, with fuel proven sufficient) and returns the number of
primes up to and including `limit`. -/
theorem c10_run_sieve (limit : Nat) (h2 : 2 ≤ limit) :
    run_sieve limit = ((Finset.range (limit + 1)).filter Nat.Prime).card := by
  set size := (limit + 1) / 2 with hsizedef
  show count_primes
      (sieve_loop (limit + 1)
        ((init_sieve (List.replicate size 0) 0 size).set 0 0) 3
        (isqrt limit (limit / 2)) size) size
    = ((Finset.range (limit + 1)).filter Nat.Prime).card
  rw [isqrt_call limit h2]
  set q := Nat.sqrt limit with hq
  have hqle : q ≤ limit / 2 := sqrt_le_half limit h2
  have hqsize : q / 2 < size := by omega
  have hinv0 := initial_inv limit h2
  rw [← hsizedef] at hinv0
  obtain ⟨g, hginv, hg3le, hgodd, hg3, hexit⟩ :=
    sieve_loop_inv size q hqsize (limit + 1) 3
      ((init_sieve (List.replicate size 0) 0 size).set 0 0)
      (by omega) (by omega) (by omega) hinv0
  set A := sieve_loop (limit + 1)
    ((init_sieve (List.replicate size 0) 0 size).set 0 0) 3 q size with hA
  have hfinal : ∀ j, 1 ≤ j → j < size → (A.getD j 0 = 1 ↔ Nat.Prime (2 * j + 1)) := by
    intro j hj1 hjsize
    obtain ⟨hv, hiff⟩ := hginv.2.2 j hj1 hjsize
    rw [hiff]
    constructor
    · intro hnc
      by_contra hnprime
      have hm3 : 3 ≤ 2 * j + 1 := by omega
      have hmodd : (2 * j + 1) % 2 = 1 := by omega
      obtain ⟨p, hpp, hpodd, hpsq, hpdvd, hplt⟩ :=
        odd_prime_factor (2 * j + 1) hmodd hm3 hnprime
      have hple : ¬p < g := fun hpg => hnc ⟨p, hpp, hpodd, hpg, hpsq, hpdvd⟩
      push_neg at hple
      have hmle : 2 * j + 1 ≤ limit := by omega
      have hpq : p ≤ q := by
        rw [hq]
        exact Nat.le_sqrt.mpr (le_trans hpsq hmle)
      rcases hexit with hgq | hnone
      · omega
      · have hp2 := hpp.two_le
        have hp3 : 3 ≤ p := by omega
        have hcp : A.getD (p / 2) 0 ≠ 1 := hnone (p / 2) (by omega) (by omega)
        have hpsize : p / 2 < size := by omega
        have hclp : cleared g (p / 2) := by
          by_contra hncl
          exact hcp ((hginv.2.2 (p / 2) (by omega) hpsize).2.mpr hncl)
        obtain ⟨r, hrp, hrodd, hrg, hrsq, hrdvd⟩ := hclp
        have hp22 : 2 * (p / 2) + 1 = p := by omega
        rw [hp22] at hrdvd
        rcases Nat.Prime.eq_one_or_self_of_dvd hpp r hrdvd with rfl | rfl
        · exact absurd hrp Nat.not_prime_one
        · omega
    · intro hprime
      rintro ⟨p, hpp, hpodd, hplt, hpsq, hpdvd⟩
      rcases Nat.Prime.eq_one_or_self_of_dvd hprime p hpdvd with rfl | rfl
      · exact absurd hpp Nat.not_prime_one
      · have := hpp.two_le
        nlinarith
  rw [count_primes_spec]
  have hcard : ((Finset.range size).filter (fun j => A.getD j 0 = 1)).card
      = ((Finset.range (limit + 1)).filter
          (fun m => Nat.Prime m ∧ m % 2 = 1)).card := by
    apply Finset.card_bij (fun j _ => 2 * j + 1)
    · intro j hj
      simp only [Finset.mem_filter, Finset.mem_range] at hj ⊢
      obtain ⟨hjr, hj1⟩ := hj
      have hj0 : 1 ≤ j := by
        rcases Nat.eq_zero_or_pos j with rfl | h
        · rw [hginv.2.1] at hj1
          omega
        · exact h
      have hp := (hfinal j hj0 hjr).mp hj1
      exact ⟨by omega, hp, by omega⟩
    · intro a ha b hb hab
      omega
    · intro m hm
      simp only [Finset.mem_filter, Finset.mem_range] at hm
      obtain ⟨hmr, hmp, hmodd⟩ := hm
      have hm2 := hmp.two_le
      have hm3 : 3 ≤ m := by omega
      have hj0 : 1 ≤ m / 2 := by omega
      have hjs : m / 2 < size := by omega
      refine ⟨m / 2, ?_, by omega⟩
      simp only [Finset.mem_filter, Finset.mem_range]
      refine ⟨hjs, ?_⟩
      rw [hfinal (m / 2) hj0 hjs, show 2 * (m / 2) + 1 = m from by omega]
      exact hmp
  rw [hcard]
  have hsplit : (Finset.range (limit + 1)).filter Nat.Prime
      = insert 2 ((Finset.range (limit + 1)).filter
          (fun m => Nat.Prime m ∧ m % 2 = 1)) := by
    ext m
    simp only [Finset.mem_filter, Finset.mem_insert, Finset.mem_range]
    constructor
    · rintro ⟨hmr, hmp⟩
      rcases hmp.eq_two_or_odd with rfl | hodd
      · exact Or.inl rfl
      · exact Or.inr ⟨hmr, hmp, hodd⟩
    · rintro (rfl | ⟨hmr, hmp, hodd⟩)
      · exact ⟨by omega, Nat.prime_two⟩
      · exact ⟨hmr, hmp⟩
  rw [hsplit, Finset.card_insert_of_not_mem (by simp)]
  omega

/-- Witness for C10 at `limit = 30`, where the prime count is 10. -/
theorem c10_run_sieve_witness :
    2 ≤ 30 ∧ run_sieve 30 = ((Finset.range 31).filter Nat.Prime).card ∧
      ((Finset.range 31).filter Nat.Prime).card = 10 :=
  ⟨by decide, c10_run_sieve 30 (by decide), by decide⟩

end MmlBench
